import Mathlib

/-!
# Verification of the prospectus text-analysis pipeline

Shallow embedding of the analyzer in `src/lib/prospectus-briefing.ts`
(the revision with `overview` and the relevance-priority sort).
JavaScript strings are modelled as `List Char`; the regular expressions of
the source are translated into deterministic matchers that realise the
backtracking behaviour of the JS regex engine on these patterns; JS numbers
that carry ratios are modelled as `ℚ`.  The browser-provided
`DOMParser`/`innerText` step is an external collaborator and enters as the
input of `stripHtml`; `new Date().toISOString()` enters as the `now`
parameter of `analyzeProspectus`.
-/

set_option maxRecDepth 40000

namespace Horizon

/-! ## Character classes (JS semantics) -/

/-- JS `\s` (and `String.prototype.trim`) whitespace set. -/
def jsWhitespace (c : Char) : Bool :=
  c = ' ' || c = Char.ofNat 9 || c = Char.ofNat 10 || c = Char.ofNat 11 ||
  c = Char.ofNat 12 || c = Char.ofNat 13 || c = Char.ofNat 0xa0 ||
  c = Char.ofNat 0x1680 || (0x2000 ≤ c.toNat && c.toNat ≤ 0x200a) ||
  c = Char.ofNat 0x2028 || c = Char.ofNat 0x2029 || c = Char.ofNat 0x202f ||
  c = Char.ofNat 0x205f || c = Char.ofNat 0x3000 || c = Char.ofNat 0xfeff

def isAsciiDigit (c : Char) : Bool := '0' ≤ c && c ≤ '9'

def isAsciiLower (c : Char) : Bool := 'a' ≤ c && c ≤ 'z'

def isAsciiUpper (c : Char) : Bool := 'A' ≤ c && c ≤ 'Z'

def isAsciiLetter (c : Char) : Bool := isAsciiLower c || isAsciiUpper c

/-- JS `\w` word character. -/
def isWordChar (c : Char) : Bool := isAsciiLetter c || isAsciiDigit c || c = '_'

def asciiLower (c : Char) : Char :=
  if isAsciiUpper c then Char.ofNat (c.toNat + 32) else c

def asciiUpper (c : Char) : Char :=
  if isAsciiLower c then Char.ofNat (c.toNat - 32) else c

/-- Case-insensitive character comparison (JS `i` flag, ASCII range). -/
def charEqCI (a b : Char) : Bool := asciiLower a = asciiLower b

/-! ## String primitives -/

/-- Drop trailing JS whitespace. -/
def rdropWS (l : List Char) : List Char :=
  ((l.reverse).dropWhile jsWhitespace).reverse

/-- JS `String.prototype.trim`. -/
def trimChars (l : List Char) : List Char :=
  rdropWS (l.dropWhile jsWhitespace)

/-- JS `text.split('\n')` (keeps empty pieces). -/
def splitNl : List Char → List (List Char)
  | [] => [[]]
  | c :: rest =>
    if c = '\n' then [] :: splitNl rest
    else
      match splitNl rest with
      | [] => [[c]]
      | piece :: pieces => (c :: piece) :: pieces

/-- State machine for `split(/\n\n+/)`: `cur` is the reversed current piece,
`nl` the number of pending consecutive newlines. -/
def splitParasGo (cur : List Char) (nl : Nat) : List Char → List (List Char)
  | [] =>
    if 2 ≤ nl then [cur.reverse, []]
    else if nl = 1 then [('\n' :: cur).reverse]
    else [cur.reverse]
  | c :: rest =>
    if c = '\n' then splitParasGo cur (nl + 1) rest
    else if 2 ≤ nl then cur.reverse :: splitParasGo [c] 0 rest
    else if nl = 1 then splitParasGo (c :: '\n' :: cur) 0 rest
    else splitParasGo (c :: cur) 0 rest

/-- JS `content.split(/\n\n+/)`. -/
def splitParas (l : List Char) : List (List Char) := splitParasGo [] 0 l

/-- State machine for `split(/\s+/)`. -/
def splitWsGo (cur : List Char) (ws : Bool) : List Char → List (List Char)
  | [] => if ws then [cur.reverse, []] else [cur.reverse]
  | c :: rest =>
    if jsWhitespace c then splitWsGo cur true rest
    else if ws then cur.reverse :: splitWsGo [c] false rest
    else splitWsGo (c :: cur) false rest

/-- JS `text.split(/\s+/)` (leading/trailing separators yield empty pieces,
and the empty string yields one empty piece — faithful to JS). -/
def splitWsRuns (l : List Char) : List (List Char) := splitWsGo [] false l

/-- Run-collapsing state machine: replace each maximal run of characters
satisfying `p` with the single character `out`.  `inRun` records whether the
previous character was in a run. -/
def collapseRunsGo (p : Char → Bool) (out : Char) (inRun : Bool) : List Char → List Char
  | [] => []
  | c :: rest =>
    if p c then
      if inRun then collapseRunsGo p out true rest
      else out :: collapseRunsGo p out true rest
    else c :: collapseRunsGo p out false rest

/-- JS `replace(/\s+/g, ' ')`. -/
def collapseWS (l : List Char) : List Char := collapseRunsGo jsWhitespace ' ' false l

/-- JS `replace(/ +/g, ' ')` (ASCII space runs only). -/
def collapseSpaces (l : List Char) : List Char := collapseRunsGo (· = ' ') ' ' false l

/-- JS `replace(/\n+/g, ' ')`. -/
def replaceNlRuns (l : List Char) : List Char := collapseRunsGo (· = '\n') ' ' false l

/-- A pending run of `nl` newlines, rewritten per `replace(/\n{3,}/g, '\n\n')`. -/
def flushNl (nl : Nat) : List Char :=
  if 3 ≤ nl then ['\n', '\n'] else List.replicate nl '\n'

def collapseNl3Go (nl : Nat) : List Char → List Char
  | [] => flushNl nl
  | c :: rest =>
    if c = '\n' then collapseNl3Go (nl + 1) rest
    else flushNl nl ++ c :: collapseNl3Go 0 rest

/-- JS `replace(/\n{3,}/g, '\n\n')`. -/
def collapseNl3 (l : List Char) : List Char := collapseNl3Go 0 l

/-- JS `replace(/\r\n/g, '\n')`. -/
def replaceCRLF : List Char → List Char
  | [] => []
  | [c] => [c]
  | c :: d :: rest =>
    if c = Char.ofNat 13 && d = '\n' then '\n' :: replaceCRLF rest
    else c :: replaceCRLF (d :: rest)

/-- JS `replace(/\r/g, '\n')`. -/
def replaceCR (l : List Char) : List Char :=
  l.map (fun c => if c = Char.ofNat 13 then '\n' else c)

/-- JS `l.indexOf(c, start)` as an `Option`. -/
def indexOfFrom (l : List Char) (c : Char) (start : Nat) : Option Nat :=
  ((l.drop start).findIdx? (· = c)).map (· + start)

/-- `sub` is a prefix of `l` (exact characters). -/
def subAt : List Char → List Char → Bool
  | [], _ => true
  | _ :: _, [] => false
  | a :: s, b :: l => a = b && subAt s l

/-- JS `l.includes(sub)` (case-sensitive substring search). -/
def containsSub : List Char → List Char → Bool
  | [], sub => subAt sub []
  | c :: rest, sub => subAt sub (c :: rest) || containsSub rest sub

/-- Case-insensitive substring search (for `/.../i.test` on literals). -/
def containsSubCI (l sub : List Char) : Bool :=
  containsSub (l.map asciiLower) (sub.map asciiLower)

/-- Decimal rendering of a natural number (JS template `${n}`). -/
def natToChars (n : Nat) : List Char := (Nat.repr n).data

/-! ## Basic lemmas about the primitives -/

theorem dropWhile_sfx (p : α → Bool) : ∀ l : List α, ∃ pre, pre ++ l.dropWhile p = l := by
  intro l
  induction l with
  | nil => exact ⟨[], rfl⟩
  | cons c rest ih =>
    by_cases h : p c
    · obtain ⟨pre, hp⟩ := ih
      exact ⟨c :: pre, by simp [List.dropWhile, h, hp]⟩
    · exact ⟨[], by simp [List.dropWhile, h]⟩

theorem rdropWS_pre (l : List Char) : ∃ post, rdropWS l ++ post = l := by
  obtain ⟨pre, hp⟩ := dropWhile_sfx jsWhitespace l.reverse
  refine ⟨pre.reverse, ?_⟩
  have := congrArg List.reverse hp
  simpa [rdropWS, List.reverse_append] using this

theorem trim_mid (l : List Char) : ∃ pre post, pre ++ trimChars l ++ post = l := by
  obtain ⟨pre, hp⟩ := dropWhile_sfx jsWhitespace l
  obtain ⟨post, hq⟩ := rdropWS_pre (l.dropWhile jsWhitespace)
  exact ⟨pre, post, by rw [trimChars, List.append_assoc, hq, hp]⟩

theorem take_mid (n : Nat) (l : List Char) : ∃ post, l.take n ++ post = l :=
  ⟨l.drop n, l.take_append_drop n⟩

/-- An infix of an infix is an infix. -/
theorem mid_trans {x y z : List Char}
    (h1 : ∃ pre post, pre ++ x ++ post = y) (h2 : ∃ pre post, pre ++ y ++ post = z) :
    ∃ pre post, pre ++ x ++ post = z := by
  obtain ⟨p1, q1, e1⟩ := h1
  obtain ⟨p2, q2, e2⟩ := h2
  exact ⟨p2 ++ p1, q1 ++ q2, by rw [← e2, ← e1]; simp [List.append_assoc]⟩

/-! ## Prefix parsers used to realise the anchored JS regexes

Each `req…` function consumes a mandatory piece of the input and returns the
rest, or `none` on failure.  Maximal munch is used for `+`/`*` repetitions;
this matches the backtracking regex engine because in every pattern below a
repetition is followed by a token that cannot match a character of the
repetition's class. -/

def skipWS (l : List Char) : List Char := l.dropWhile jsWhitespace

/-- `\s+` (at least one whitespace character, maximal). -/
def reqWSp : List Char → Option (List Char)
  | [] => none
  | c :: rest => if jsWhitespace c then some (rest.dropWhile jsWhitespace) else none

/-- `⟨class⟩+` (at least one character of the class, maximal). -/
def reqRun (p : Char → Bool) : List Char → Option (List Char)
  | [] => none
  | c :: rest => if p c then some (rest.dropWhile p) else none

def reqChar (c : Char) : List Char → Option (List Char)
  | [] => none
  | d :: rest => if d = c then some rest else none

/-- Literal word; `ci` selects case-insensitive comparison (the `i` flag). -/
def reqLit (ci : Bool) : List Char → List Char → Option (List Char)
  | [], l => some l
  | _ :: _, [] => none
  | a :: w, b :: l =>
    if (if ci then charEqCI a b else a = b) then reqLit ci w l else none

/-! ## Boilerplate patterns (`BOILERPLATE_PATTERNS`) -/

/-- `[a-f0-9-]` with the `i` flag. -/
def isHexDash (c : Char) : Bool :=
  ('a' ≤ asciiLower c && asciiLower c ≤ 'f') || isAsciiDigit c || c = '-'

/-- `[ivxlcdm]` with the `i` flag. -/
def isRomanChar (c : Char) : Bool :=
  let d := asciiLower c
  d = 'i' || d = 'v' || d = 'x' || d = 'l' || d = 'c' || d = 'd' || d = 'm'

/-- `[\d,]`. -/
def isDigitComma (c : Char) : Bool := isAsciiDigit c || c = ','

/-- `[\d-]`. -/
def isDigitDash (c : Char) : Bool := isAsciiDigit c || c = '-'

/-- `/^\s*\d+\s+[a-f0-9-]+\.htm\s+/i` -/
def bpIndexFile (l : List Char) : Bool :=
  (do
    let l ← reqRun isAsciiDigit (skipWS l)
    let l ← reqWSp l
    let l ← reqRun isHexDash l
    let l ← reqChar '.' l
    let l ← reqLit true ("htm").data l
    reqWSp l).isSome

/-- `/^\s*PROSPECTUS\s+PROSPECTUS\s*/i` -/
def bpProspectusDup (l : List Char) : Bool :=
  (do
    let l ← reqLit true ("PROSPECTUS").data (skipWS l)
    let l ← reqWSp l
    reqLit true ("PROSPECTUS").data l).isSome

/-- `/^\s*Filed\s+Pursuant\s+to\s+Rule\s+424/i` -/
def bpFiledPursuant (l : List Char) : Bool :=
  (do
    let l ← reqLit true ("Filed").data (skipWS l)
    let l ← reqWSp l
    let l ← reqLit true ("Pursuant").data l
    let l ← reqWSp l
    let l ← reqLit true ("to").data l
    let l ← reqWSp l
    let l ← reqLit true ("Rule").data l
    let l ← reqWSp l
    reqLit false ("424").data l).isSome

/-- `/^\s*Registration\s+No\.\s+\d+/i` -/
def bpRegistrationNo (l : List Char) : Bool :=
  (do
    let l ← reqLit true ("Registration").data (skipWS l)
    let l ← reqWSp l
    let l ← reqLit true ("No").data l
    let l ← reqChar '.' l
    let l ← reqWSp l
    reqRun isAsciiDigit l).isSome

/-- `/^\s*\$\s*[\d,]+(?:\.\d+)?\s*(?:million|billion)?/i` — the trailing
optional groups cannot cause failure, so `test` reduces to the mandatory
`\$\s*[\d,]+` prefix. -/
def bpDollarAmount (l : List Char) : Bool :=
  (do
    let l ← reqChar '$' (skipWS l)
    reqRun isDigitComma (skipWS l)).isSome

/-- `/^\s*Table\s+of\s+Contents\s*$/i` -/
def bpTableOfContents (l : List Char) : Bool :=
  (do
    let l ← reqLit true ("Table").data (skipWS l)
    let l ← reqWSp l
    let l ← reqLit true ("of").data l
    let l ← reqWSp l
    let l ← reqLit true ("Contents").data l
    if skipWS l = [] then some () else none).isSome

/-- `/^\s*[ivxlcdm]+\s*\./i` -/
def bpRomanNumeral (l : List Char) : Bool :=
  (do
    let l ← reqRun isRomanChar (skipWS l)
    reqChar '.' (skipWS l)).isSome

/-- `/^\s*\(\d+\)\s*$/` -/
def bpParenNumber (l : List Char) : Bool :=
  (do
    let l ← reqChar '(' (skipWS l)
    let l ← reqRun isAsciiDigit l
    let l ← reqChar ')' l
    if skipWS l = [] then some () else none).isSome

/-- `/^\s*page\s+\d+/i` -/
def bpPageNumber (l : List Char) : Bool :=
  (do
    let l ← reqLit true ("page").data (skipWS l)
    let l ← reqWSp l
    reqRun isAsciiDigit l).isSome

/-- `BOILERPLATE_PATTERNS.some((p) => p.test(line))`. -/
def boilerplateAny (l : List Char) : Bool :=
  bpIndexFile l || bpProspectusDup l || bpFiledPursuant l || bpRegistrationNo l ||
  bpDollarAmount l || bpTableOfContents l || bpRomanNumeral l || bpParenNumber l ||
  bpPageNumber l

/-! ## `stripBoilerplate` -/

/-- One alternative of `/[\d-]{10}|\.htm|333-|Rule\s+424/i` anchored at the
current position. -/
def shortMetaAt (l : List Char) : Bool :=
  ((l.take 10).length = 10 && (l.take 10).all isDigitDash) ||
  (reqLit true (".htm").data l).isSome ||
  (reqLit false ("333-").data l).isSome ||
  (do
    let l ← reqLit true ("Rule").data l
    let l ← reqWSp l
    reqLit false ("424").data l).isSome

/-- Unanchored `test` of `/[\d-]{10}|\.htm|333-|Rule\s+424/i`. -/
def shortMetaTest : List Char → Bool
  | [] => false
  | c :: rest => shortMetaAt (c :: rest) || shortMetaTest rest

/-- `/^[\d\s$.,]+$/.test(line)`. -/
def pureNumericTest (l : List Char) : Bool :=
  !l.isEmpty &&
    l.all (fun c => isAsciiDigit c || jsWhitespace c || c = '$' || c = '.' || c = ',')

/-- The substantive-line condition of the `else if` branch:
`line.length >= 80 && /[a-z]/.test(line) && !/^[\d\s$.,]+$/.test(line)`. -/
def substantiveLine (line : List Char) : Bool :=
  80 ≤ line.length && line.any isAsciiLower && !pureNumericTest line

/-- The skip condition of the loop body:
`isBoilerplate || (i < 5 && isShortMetadata)` on the trimmed line. -/
def sbSkipCond (i : Nat) (line : List Char) : Bool :=
  boilerplateAny line ||
    (decide (i < 5) && (decide (line.length < 60) && shortMetaTest line))

/-- The scanning loop of `stripBoilerplate`, over the (at most 50) lines,
carrying the loop index `i` and the accumulated `skipChars`.  Returns the
final `skipChars` together with the `started` flag. -/
def sbScan : List (List Char) → Nat → Nat → Nat × Bool
  | [], _, skip => (skip, false)
  | l :: ls, i, skip =>
    if (trimChars l).isEmpty then sbScan ls (i + 1) skip
    else if sbSkipCond i (trimChars l) then sbScan ls (i + 1) (skip + l.length + 1)
    else if substantiveLine (trimChars l) then (skip, true)
    else sbScan ls (i + 1) skip

/-- `stripBoilerplate(text)` from the source. -/
def stripBoilerplate (text : List Char) : List Char :=
  let lines := splitNl text
  let r := sbScan (lines.take 50) 0 0
  let skipChars := if r.2 then r.1 else 0
  trimChars (text.drop skipChars)

/-! ## `extractSubstantiveExcerpt` -/

/-- The ellipsis character appended on hard truncation. -/
def hellip : Char := '…'

/-- The body applied to the first candidate paragraph (already
whitespace-collapsed and trimmed) when one is found. -/
def excerptOfCandidate (maxLen : Nat) (clean : List Char) : List Char :=
  if clean.length ≤ maxLen then clean
  else
    match indexOfFrom clean '.' (min maxLen (clean.length - 1)) with
    | some idx =>
      -- `idx > maxLen / 2` on JS numbers coincides with Nat floor division
      if maxLen / 2 < idx then trimChars (clean.take (idx + 1))
      else trimChars (clean.take maxLen) ++ [hellip]
    | none => trimChars (clean.take maxLen) ++ [hellip]

/-- The paragraph loop: the first paragraph whose collapsed, trimmed form has
length ≥ 60 and matches no boilerplate pattern is the candidate. -/
def firstCleanPara : List (List Char) → Option (List Char)
  | [] => none
  | p :: ps =>
    let clean := trimChars (collapseWS p)
    if clean.length < 60 then firstCleanPara ps
    else if boilerplateAny clean then firstCleanPara ps
    else some clean

/-- The fallback when no paragraph qualifies: flatten newlines and cut at the
first period after offset 200 (no trimming in this branch, as in the source). -/
def excerptFallback (maxLen : Nat) (content : List Char) : List Char :=
  let flat := trimChars (replaceNlRuns content)
  if 80 < flat.length then
    match indexOfFrom flat '.' 200 with
    | some idx => if 100 < idx then flat.take (idx + 1) else flat.take maxLen ++ [hellip]
    | none => flat.take maxLen ++ [hellip]
  else []

/-- `extractSubstantiveExcerpt(content, maxLen = 280)` from the source. -/
def extractSubstantiveExcerpt (content : List Char) (maxLen : Nat := 280) : List Char :=
  match firstCleanPara (splitParas content) with
  | some clean => excerptOfCandidate maxLen clean
  | none => excerptFallback maxLen content

/-! ## Lemmas about substrings and `indexOfFrom` -/

theorem subAt_iff : ∀ s l : List Char, subAt s l = true ↔ ∃ t, s ++ t = l := by
  intro s
  induction s with
  | nil => intro l; simp [subAt]
  | cons a s ih =>
    intro l
    cases l with
    | nil => simp [subAt]
    | cons b l =>
      simp only [subAt, Bool.and_eq_true, decide_eq_true_eq, ih l, List.cons_append,
        List.cons.injEq]
      constructor
      · rintro ⟨rfl, t, rfl⟩; exact ⟨t, rfl, rfl⟩
      · rintro ⟨t, rfl, rfl⟩; exact ⟨rfl, t, rfl⟩

theorem containsSub_iff : ∀ l s : List Char,
    containsSub l s = true ↔ ∃ pre post, pre ++ s ++ post = l := by
  intro l
  induction l with
  | nil =>
    intro s
    simp only [containsSub, subAt_iff]
    constructor
    · rintro ⟨t, ht⟩
      rcases List.append_eq_nil.mp ht with ⟨rfl, rfl⟩
      exact ⟨[], [], rfl⟩
    · rintro ⟨pre, post, h⟩
      rcases List.append_eq_nil.mp h with ⟨h1, rfl⟩
      rcases List.append_eq_nil.mp h1 with ⟨rfl, rfl⟩
      exact ⟨[], rfl⟩
  | cons c rest ih =>
    intro s
    simp only [containsSub, Bool.or_eq_true, subAt_iff, ih]
    constructor
    · rintro (⟨t, ht⟩ | ⟨pre, post, h⟩)
      · exact ⟨[], t, by simpa using ht⟩
      · exact ⟨c :: pre, post, by simp [h]⟩
    · rintro ⟨pre, post, h⟩
      cases pre with
      | nil => exact Or.inl ⟨post, by simpa using h⟩
      | cons d pre =>
        simp only [List.cons_append, List.cons.injEq] at h
        exact Or.inr ⟨pre, post, h.2⟩

theorem indexOfFrom_some {l : List Char} {c : Char} {s i : Nat}
    (h : indexOfFrom l c s = some i) :
    s ≤ i ∧ l.get? i = some c ∧ ∀ j, s ≤ j → j < i → l.get? j ≠ some c := by
  simp only [indexOfFrom, Option.map_eq_some'] at h
  obtain ⟨k, hk, rfl⟩ := h
  rw [List.findIdx?_eq_some_iff_getElem] at hk
  obtain ⟨hlen, hp, hbefore⟩ := hk
  refine ⟨Nat.le_add_left s k, ?_, ?_⟩
  · have : (l.drop s).get? k = some c := by
      rw [List.get?_eq_getElem?, List.getElem?_eq_getElem hlen]
      simpa using hp
    rw [List.get?_drop] at this
    rw [show k + s = s + k from Nat.add_comm k s]
    exact this
  · intro j hsj hji hget
    have hj' : j - s < k := by omega
    have : (l.drop s).get? (j - s) = some c := by
      rw [List.get?_drop]
      rw [show s + (j - s) = j from by omega]
      exact hget
    have hlt : j - s < (l.drop s).length := Nat.lt_trans hj' hlen
    rw [List.get?_eq_getElem?, List.getElem?_eq_getElem hlt] at this
    exact hbefore (j - s) hj' (by simpa using this)

theorem indexOfFrom_none {l : List Char} {c : Char} {s : Nat}
    (h : indexOfFrom l c s = none) :
    ∀ j, s ≤ j → l.get? j ≠ some c := by
  simp only [indexOfFrom, Option.map_eq_none'] at h
  rw [List.findIdx?_eq_none_iff] at h
  intro j hsj hget
  have hjlen : j - s < (l.drop s).length ∨ (l.drop s).get? (j - s) = none := by
    by_cases hh : j - s < (l.drop s).length
    · exact Or.inl hh
    · exact Or.inr (List.get?_eq_none.mpr (by omega))
  have hg : (l.drop s).get? (j - s) = some c := by
    rw [List.get?_drop, show s + (j - s) = j from by omega]
    exact hget
  have hmem : c ∈ l.drop s := List.get?_mem hg
  have := h c hmem
  simp at this

/-- Infix fact for the truncation results: `trimChars (l.take n)` is always a
contiguous substring of `l`. -/
theorem trim_take_mid (n : Nat) (l : List Char) :
    ∃ pre post, pre ++ trimChars (l.take n) ++ post = l := by
  refine mid_trans (trim_mid _) ⟨[], l.drop n, by simp⟩

theorem firstCleanPara_mem : ∀ (paras : List (List Char)) (clean : List Char),
    firstCleanPara paras = some clean →
    ∃ p ∈ paras, clean = trimChars (collapseWS p) := by
  intro paras
  induction paras with
  | nil => intro clean h; simp [firstCleanPara] at h
  | cons p ps ih =>
    intro clean h
    rw [firstCleanPara] at h
    by_cases h1 : (trimChars (collapseWS p)).length < 60
    · rw [if_pos h1] at h
      obtain ⟨q, hq, he⟩ := ih clean h
      exact ⟨q, List.mem_cons_of_mem _ hq, he⟩
    · rw [if_neg h1] at h
      by_cases h2 : boilerplateAny (trimChars (collapseWS p))
      · rw [if_pos h2] at h
        obtain ⟨q, hq, he⟩ := ih clean h
        exact ⟨q, List.mem_cons_of_mem _ hq, he⟩
      · rw [if_neg h2] at h
        exact ⟨p, List.mem_cons_self _ _, (Option.some.injEq _ _ ▸ h).symm⟩

/-! ## Claims C1 and C4 -/

/-- C1 (amended).  The excerpt is always either empty or a verbatim
contiguous substring of the *whitespace-normalized* text it was cut from —
the paragraph with whitespace runs collapsed to single spaces and edges
trimmed, or, in the fallback, the content with newline runs replaced by
spaces and edges trimmed — possibly with a single trailing ellipsis appended
on hard truncation.  (The original claim, substring of the raw paragraph
text, fails because of the whitespace collapsing; see the counterexample.) -/
theorem claim1_excerpt_substring_amended (content : List Char) (maxLen : Nat) :
    extractSubstantiveExcerpt content maxLen = [] ∨
    (∃ p ∈ splitParas content,
      (∃ pre post, pre ++ extractSubstantiveExcerpt content maxLen ++ post =
        trimChars (collapseWS p)) ∨
      (∃ r, extractSubstantiveExcerpt content maxLen = r ++ [hellip] ∧
        ∃ pre post, pre ++ r ++ post = trimChars (collapseWS p))) ∨
    ((∃ pre post, pre ++ extractSubstantiveExcerpt content maxLen ++ post =
        trimChars (replaceNlRuns content)) ∨
      (∃ r, extractSubstantiveExcerpt content maxLen = r ++ [hellip] ∧
        ∃ pre post, pre ++ r ++ post = trimChars (replaceNlRuns content))) := by
  cases hfc : firstCleanPara (splitParas content) with
  | some clean =>
    obtain ⟨p, hp, rfl⟩ := firstCleanPara_mem _ _ hfc
    refine Or.inr (Or.inl ⟨p, hp, ?_⟩)
    by_cases hle : (trimChars (collapseWS p)).length ≤ maxLen
    · have hbase : extractSubstantiveExcerpt content maxLen = trimChars (collapseWS p) := by
        rw [extractSubstantiveExcerpt, hfc]
        simp only [excerptOfCandidate, if_pos hle]
      rw [hbase]
      exact Or.inl ⟨[], [], by simp⟩
    · cases hidx : indexOfFrom (trimChars (collapseWS p)) '.'
          (min maxLen ((trimChars (collapseWS p)).length - 1)) with
      | some idx =>
        by_cases hg : maxLen / 2 < idx
        · have hbase : extractSubstantiveExcerpt content maxLen =
              trimChars ((trimChars (collapseWS p)).take (idx + 1)) := by
            rw [extractSubstantiveExcerpt, hfc]
            simp only [excerptOfCandidate, if_neg hle, hidx, if_pos hg]
          rw [hbase]
          exact Or.inl (trim_take_mid _ _)
        · have hbase : extractSubstantiveExcerpt content maxLen =
              trimChars ((trimChars (collapseWS p)).take maxLen) ++ [hellip] := by
            rw [extractSubstantiveExcerpt, hfc]
            simp only [excerptOfCandidate, if_neg hle, hidx, if_neg hg]
          rw [hbase]
          exact Or.inr ⟨_, rfl, trim_take_mid _ _⟩
      | none =>
        have hbase : extractSubstantiveExcerpt content maxLen =
            trimChars ((trimChars (collapseWS p)).take maxLen) ++ [hellip] := by
          rw [extractSubstantiveExcerpt, hfc]
          simp only [excerptOfCandidate, if_neg hle, hidx]
        rw [hbase]
        exact Or.inr ⟨_, rfl, trim_take_mid _ _⟩
  | none =>
    by_cases hfl : 80 < (trimChars (replaceNlRuns content)).length
    · refine Or.inr (Or.inr ?_)
      cases hidx : indexOfFrom (trimChars (replaceNlRuns content)) '.' 200 with
      | some idx =>
        by_cases hg : 100 < idx
        · have hbase : extractSubstantiveExcerpt content maxLen =
              (trimChars (replaceNlRuns content)).take (idx + 1) := by
            rw [extractSubstantiveExcerpt, hfc]
            simp only [excerptFallback, if_pos hfl, hidx, if_pos hg]
          rw [hbase]
          exact Or.inl ⟨[], (trimChars (replaceNlRuns content)).drop (idx + 1), by simp⟩
        · have hbase : extractSubstantiveExcerpt content maxLen =
              (trimChars (replaceNlRuns content)).take maxLen ++ [hellip] := by
            rw [extractSubstantiveExcerpt, hfc]
            simp only [excerptFallback, if_pos hfl, hidx, if_neg hg]
          rw [hbase]
          exact Or.inr ⟨_, rfl, [], (trimChars (replaceNlRuns content)).drop maxLen, by simp⟩
      | none =>
        have hbase : extractSubstantiveExcerpt content maxLen =
            (trimChars (replaceNlRuns content)).take maxLen ++ [hellip] := by
          rw [extractSubstantiveExcerpt, hfc]
          simp only [excerptFallback, if_pos hfl, hidx]
        rw [hbase]
        exact Or.inr ⟨_, rfl, [], (trimChars (replaceNlRuns content)).drop maxLen, by simp⟩
    · refine Or.inl ?_
      rw [extractSubstantiveExcerpt, hfc]
      simp only [excerptFallback, if_neg hfl]

/-- A single paragraph containing a double space: the excerpt collapses the
whitespace run, so the result is not a substring of the raw paragraph. -/
def c1para : List Char :=
  ("The company intends to expand operations across several regions,  maintaining discipline.").data

/-- C1 counterexample: the input is one paragraph; the returned excerpt is
non-empty, carries no trailing ellipsis, and is *not* a verbatim substring of
the paragraph text (a character was altered: the double space became one). -/
theorem claim1_counterexample :
    splitParas c1para = [c1para] ∧
    extractSubstantiveExcerpt c1para 280 ≠ [] ∧
    ¬ (∃ pre post, pre ++ extractSubstantiveExcerpt c1para 280 ++ post = c1para) ∧
    ∀ r, extractSubstantiveExcerpt c1para 280 ≠ r ++ [hellip] := by
  refine ⟨by decide, by decide, ?_, ?_⟩
  · intro hmem
    have : containsSub c1para (extractSubstantiveExcerpt c1para 280) = true :=
      (containsSub_iff _ _).mpr hmem
    exact absurd this (by decide)
  · intro r hr
    have := congrArg List.getLast? hr
    rw [List.getLast?_concat] at this
    exact absurd this (by decide)

/-- C4 (amended).  For a candidate paragraph whose collapsed length exceeds
`maxLen`, the excerpt ends at the *first* period at or after position
`maxLen` — not the last one — provided its index exceeds `maxLen / 2`;
otherwise (no such period, or the guard fails, which can only happen for
`maxLen = 0`) the first `maxLen` characters are returned, trimmed, with an
ellipsis appended. -/
theorem claim4_truncation_amended (content : List Char) (maxLen : Nat) (clean : List Char)
    (h1 : firstCleanPara (splitParas content) = some clean)
    (h2 : maxLen < clean.length) :
    (∀ idx, indexOfFrom clean '.' maxLen = some idx → maxLen / 2 < idx →
      extractSubstantiveExcerpt content maxLen = trimChars (clean.take (idx + 1)) ∧
      clean.get? idx = some '.' ∧ maxLen ≤ idx ∧
      (∀ j, maxLen ≤ j → j < idx → clean.get? j ≠ some '.')) ∧
    (∀ idx, indexOfFrom clean '.' maxLen = some idx → ¬ maxLen / 2 < idx →
      extractSubstantiveExcerpt content maxLen = trimChars (clean.take maxLen) ++ [hellip]) ∧
    (indexOfFrom clean '.' maxLen = none →
      extractSubstantiveExcerpt content maxLen = trimChars (clean.take maxLen) ++ [hellip]) := by
  have hmin : min maxLen (clean.length - 1) = maxLen := by omega
  have hbase : extractSubstantiveExcerpt content maxLen =
      excerptOfCandidate maxLen clean := by
    rw [extractSubstantiveExcerpt, h1]
  refine ⟨?_, ?_, ?_⟩
  · intro idx hidx hg
    obtain ⟨hle, hat, hfirst⟩ := indexOfFrom_some hidx
    refine ⟨?_, hat, hle, hfirst⟩
    rw [hbase, excerptOfCandidate, if_neg (by omega), hmin, hidx]
    simp [hg]
  · intro idx hidx hg
    rw [hbase, excerptOfCandidate, if_neg (by omega), hmin, hidx]
    simp [hg]
  · intro hidx
    rw [hbase, excerptOfCandidate, if_neg (by omega), hmin, hidx]

/-- The C4 counterexample/witness paragraph: 129 characters with periods at
indices 80, 110 and 120 only. -/
def c4c : List Char :=
  List.replicate 80 'a' ++ '.' :: (List.replicate 29 'b' ++ '.' ::
    (List.replicate 9 'c' ++ '.' :: List.replicate 8 'd'))

/-- C4 counterexample (`maxLen = 100`): the code returns the paragraph up to
the period at index 110 (the first one at or after 100), which is neither
"up to the last period at or after `maxLen/2 = 50`" (that period is at index
120) nor "up to the last period at or before `maxLen`, after `maxLen/2`"
(that period is at index 80). -/
theorem claim4_counterexample :
    extractSubstantiveExcerpt c4c 100 = c4c.take 111 ∧
    c4c.get? 120 = some '.' ∧ ((c4c.drop 121).all (· ≠ '.')) = true ∧
    c4c.take 111 ≠ c4c.take 121 ∧
    c4c.get? 80 = some '.' ∧ c4c.take 111 ≠ c4c.take 81 := by
  refine ⟨by decide, by decide, by decide, by decide, by decide, by decide⟩

/-- C4 witness: the amended theorem applied to the concrete paragraph. -/
theorem claim4_witness :
    firstCleanPara (splitParas c4c) = some c4c ∧ 100 < c4c.length ∧
    indexOfFrom c4c '.' 100 = some 110 ∧ 100 / 2 < 110 ∧
    extractSubstantiveExcerpt c4c 100 = trimChars (c4c.take 111) :=
  ⟨by decide, by decide, by decide, by decide,
    ((claim4_truncation_amended c4c 100 c4c (by decide) (by decide)).1 110
      (by decide) (by decide)).1⟩

/-! ## Section heading patterns (`SECTION_PATTERNS`)

Every pattern has the shape
`(?:^|\n)\s*(?:Item\s+\d+[A-Z]?\.\s*)?(Name₁|Name₂)\s*[\n:.]` (flags `gi`),
without the `Item` group for `Offering`, and with tail `\s*\n` and no flags
besides `g` for the two uppercase variants.  The matchers below realise the
backtracking engine deterministically: every repetition is maximal-munch
safe except the trailing `\s*` before `[\n:.]`, whose greedy backtracking is
computed explicitly in `matchTail`. -/

/-- One token of a heading-name alternative: a literal character, `\s+`, or
the optional apostrophe `['’]?` of `Management['’]?s`. -/
inductive CPat where
  | lit (c : Char)
  | ws
  | optApos

def litW (s : String) : List CPat := s.data.map CPat.lit

/-- Words of one alternative, joined by `\s+`. -/
def wordsAlt : List String → List CPat
  | [] => []
  | [w] => litW w
  | w :: rest => litW w ++ CPat.ws :: wordsAlt rest

/-- Match a token list at the head of the input; returns the rest. -/
def matchToks (ci : Bool) : List CPat → List Char → Option (List Char)
  | [], l => some l
  | CPat.lit _ :: _, [] => none
  | CPat.lit c :: toks, d :: rest =>
    if (if ci then charEqCI c d else c = d) then matchToks ci toks rest else none
  | CPat.ws :: toks, [] => none
  | CPat.ws :: toks, d :: rest =>
    if jsWhitespace d then matchToks ci toks (rest.dropWhile jsWhitespace) else none
  | CPat.optApos :: toks, [] => matchToks ci toks []
  | CPat.optApos :: toks, d :: rest =>
    if d = '\'' || d = '’' then matchToks ci toks rest else matchToks ci toks (d :: rest)

/-- Try the name alternatives in order; returns the number of characters the
matched name (the capture group) consumed. -/
def matchAlts (ci : Bool) : List (List CPat) → List Char → Option Nat
  | [], _ => none
  | alt :: rest, l =>
    match matchToks ci alt l with
    | some rem => some (l.length - rem.length)
    | none => matchAlts ci rest l

/-- Index of the last occurrence of `c` in `l`. -/
def lastIdxOf (c : Char) (l : List Char) : Option Nat :=
  (l.reverse.findIdx? (· = c)).map (fun i => l.length - 1 - i)

/-- The trailing `\s*[\n:.]` (or `\s*\n` when `nlOnly`) after the heading
name, with the regex engine's greedy choice: the whole whitespace run
followed by `:` or `.`, or else up to the last newline inside the run.
Returns the number of characters consumed. -/
def matchTail (nlOnly : Bool) (l : List Char) : Option Nat :=
  let run := l.takeWhile jsWhitespace
  let afterRun := l.drop run.length
  if !nlOnly && (afterRun.head? = some ':' || afterRun.head? = some '.') then
    some (run.length + 1)
  else
    match lastIdxOf '\n' run with
    | some j => some (j + 1)
    | none => none

/-- `Item\s+\d+[A-Z]?\.\s*` (`[A-Z]` is caseless under the `i` flag). -/
def matchItem (l : List Char) : Option (List Char) := do
  let l ← reqLit true ("Item").data l
  let l ← reqWSp l
  let l ← reqRun isAsciiDigit l
  let l ← (match l with
    | d :: rest => if isAsciiLetter d then reqChar '.' rest else reqChar '.' (d :: rest)
    | [] => none)
  pure (l.dropWhile jsWhitespace)

structure HeadingPat where
  allowItem : Bool
  alts : List (List CPat)
  ci : Bool
  nlOnly : Bool

/-- The body of a heading pattern after the `(?:^|\n)` anchor: `\s*`, the
optional `Item` prefix (with fallback to the bare name if the rest fails
after it, as the backtracking engine does), one name alternative, then the
tail.  Returns the captured name and the number of characters consumed. -/
def matchBody (hp : HeadingPat) (l : List Char) : Option (List Char × Nat) :=
  let afterWS := l.dropWhile jsWhitespace
  let nameTail : List Char → Option (List Char × Nat) := fun rest =>
    match matchAlts hp.ci hp.alts rest with
    | some n =>
      match matchTail hp.nlOnly (rest.drop n) with
      | some tl => some (rest.take n, (l.length - rest.length) + n + tl)
      | none => none
    | none => none
  if hp.allowItem then
    match matchItem afterWS with
    | some afterItem =>
      match nameTail afterItem with
      | some r => some r
      | none => nameTail afterWS
    | none => nameTail afterWS
  else nameTail afterWS

/-- The `exec` loop of one pattern over the text, collecting
`(m.index, m[1])` pairs.  Position 0 is the `^` anchor (when the text starts
with a newline the `\n` alternative coincides with it, since the body begins
with `\s*`); at any later position the `(?:^|\n)` group consumes a literal
newline, so `m.index` is the newline's position.  After a match the scan
resumes at its end (`lastIndex`). -/
def scanGo (hp : HeadingPat) : Nat → List Char → Nat → List (Nat × List Char)
  | 0, _, _ => []
  | _ + 1, [], _ => []
  | fuel + 1, c :: rest, pos =>
    if pos = 0 then
      match matchBody hp (c :: rest) with
      | some (nm, len) => (0, nm) :: scanGo hp fuel ((c :: rest).drop len) len
      | none => scanGo hp fuel rest (pos + 1)
    else if c = '\n' then
      match matchBody hp rest with
      | some (nm, len) => (pos, nm) :: scanGo hp fuel (rest.drop len) (pos + 1 + len)
      | none => scanGo hp fuel rest (pos + 1)
    else scanGo hp fuel rest (pos + 1)

def scanPattern (hp : HeadingPat) (t : List Char) : List (Nat × List Char) :=
  scanGo hp (t.length + 1) t 0

/-- `SECTION_PATTERNS`, in source order. -/
def SECTION_PATTERNS : List HeadingPat := [
  ⟨true, [wordsAlt ["Prospectus", "Summary"]], true, false⟩,
  ⟨true, [wordsAlt ["Risk", "Factors"]], true, false⟩,
  ⟨true, [wordsAlt ["Use", "of", "Proceeds"]], true, false⟩,
  ⟨true, [wordsAlt ["Our", "Business"], wordsAlt ["Business"]], true, false⟩,
  ⟨true, [litW "Management" ++ CPat.optApos :: litW "s" ++ CPat.ws :: litW "Discussion",
    wordsAlt ["Selected", "Financial"]], true, false⟩,
  ⟨true, [wordsAlt ["Capitalization"], wordsAlt ["Dilution"]], true, false⟩,
  ⟨true, [wordsAlt ["Description", "of", "Securities"]], true, false⟩,
  ⟨true, [wordsAlt ["Underwriting"]], true, false⟩,
  ⟨true, [wordsAlt ["Legal", "Matters"], wordsAlt ["Experts"]], true, false⟩,
  ⟨true, [wordsAlt ["Where", "You", "Can", "Find"]], true, false⟩,
  ⟨false, [wordsAlt ["Offering"]], true, false⟩,
  ⟨false, [wordsAlt ["RISK", "FACTORS"]], false, true⟩,
  ⟨false, [wordsAlt ["USE", "OF", "PROCEEDS"]], false, true⟩]

/-- `sectionNames` (display names; note the source list has 14 entries for
13 patterns, so the names from index 5 on are shifted — harmless because the
capture group always participates, making the `?? displayName` fallback
dead). -/
def sectionNames : List String := [
  "Prospectus Summary", "Risk Factors", "Use of Proceeds", "Our Business",
  "Management's Discussion", "Capitalization", "Dilution", "Description of Securities",
  "Underwriting", "Legal Matters", "Where You Can Find", "Offering",
  "Risk Factors", "Use of Proceeds"]

/-- `normalizeSectionName` from the source. -/
def normalizeSectionName (name : List Char) : List Char :=
  let n := name.map asciiUpper
  if n = ("RISK FACTORS").data then ("Risk Factors").data
  else if n = ("USE OF PROCEEDS").data then ("Use of Proceeds").data
  else if containsSub n (("BUSINESS").data) then ("Our Business").data
  else collapseWS (trimChars name)

structure HeadingMatch where
  name : List Char
  index : Nat
deriving DecidableEq

/-- The raw matches of all patterns over the cleaned text, in processing
order (pattern order, then left-to-right), already carrying the normalized
name `normalizeSectionName((m[1] ?? displayName).trim() || displayName)`. -/
def rawMatchesOf (cleaned : List Char) : List HeadingMatch :=
  (List.zip SECTION_PATTERNS sectionNames).flatMap fun pd =>
    (scanPattern pd.1 cleaned).map fun m =>
      let mn := trimChars m.2
      let mn := if mn.isEmpty then pd.2.data else mn
      ⟨normalizeSectionName mn, m.1⟩

/-- `Math.abs(x.index - idx) < 30` on JS numbers. -/
def nearIdx (a b : Nat) : Bool := ((a : Int) - (b : Int)).natAbs < 30

/-- The dedup loop: a match within 30 characters of an already-recorded one
is dropped, otherwise pushed. -/
def dedupGo (acc : List HeadingMatch) : List HeadingMatch → List HeadingMatch
  | [] => acc
  | m :: ms =>
    if acc.any (fun x => nearIdx x.index m.index) then dedupGo acc ms
    else dedupGo (acc ++ [m]) ms

def dedupMatches (ms : List HeadingMatch) : List HeadingMatch := dedupGo [] ms

/-- JS `Array.prototype.sort` (stable since ES2019) with an integer
comparator, modelled as Mathlib's stable insertion sort on `cmp a b ≤ 0`. -/
def jsSortBy (cmp : α → α → Int) (l : List α) : List α :=
  List.insertionSort (fun a b => cmp a b ≤ 0) l

structure SectionSpan where
  name : List Char
  content : List Char
  start : Nat
deriving DecidableEq

/-- The content of one span: `cleaned.slice(start, e)`, with the heading's
own line trimmed off when the first newline occurs within 120 characters. -/
def spanContent (cleaned : List Char) (start e : Nat) : List Char :=
  let content := (cleaned.drop start).take (e - start)
  match indexOfFrom content '\n' 0 with
  | some fn => if 0 < fn ∧ fn < 120 then trimChars (content.drop fn) else content
  | none => content

/-- The push of one span, kept only if its content length exceeds 150. -/
def spanFilter (cleaned : List Char) (m : HeadingMatch) (e : Nat) : List SectionSpan :=
  if 150 < (spanContent cleaned m.index e).length then
    [⟨m.name, spanContent cleaned m.index e, m.index⟩]
  else []

/-- The span-building loop over the offset-sorted matches: each span runs
from its match's offset to the next match's offset (or the end of the
document). -/
def buildSpans (cleaned : List Char) : List HeadingMatch → List SectionSpan
  | [] => []
  | [m] => spanFilter cleaned m cleaned.length
  | m :: m' :: rest => spanFilter cleaned m m'.index ++ buildSpans cleaned (m' :: rest)

/-- The heading-derived spans of the cleaned text: scan all patterns,
deduplicate by 30-character proximity, sort by offset, build spans. -/
def headingSpans (cleaned : List Char) : List SectionSpan :=
  buildSpans cleaned
    (jsSortBy (fun a b => (a.index : Int) - (b.index : Int))
      (dedupMatches (rawMatchesOf cleaned)))

/-- `extractSections(text)` from the source. -/
def extractSections (text : List Char) : List SectionSpan :=
  let cleaned := stripBoilerplate text
  let sections := headingSpans cleaned
  if sections.isEmpty ∧ 500 < cleaned.length then
    [⟨("Summary").data, cleaned.take 20000, 0⟩]
  else sections

/-! ## Lemmas: stable sort by an integer comparator -/

theorem jsSortBy_pairwise_key (key : α → Nat) (cmp : α → α → Int)
    (hord : ∀ a b, cmp a b ≤ 0 ↔ key a ≤ key b) (l : List α) :
    (jsSortBy cmp l).Pairwise (fun a b => key a ≤ key b) := by
  haveI : IsTotal α (fun a b => cmp a b ≤ 0) :=
    ⟨fun a b => by rw [hord, hord]; omega⟩
  haveI : IsTrans α (fun a b => cmp a b ≤ 0) :=
    ⟨fun a b c hab hbc => by rw [hord] at *; omega⟩
  exact (List.sorted_insertionSort _ l).imp (fun hab => (hord _ _).mp hab)

theorem jsSortBy_filter_key (key : α → Nat) (cmp : α → α → Int)
    (hord : ∀ a b, cmp a b ≤ 0 ↔ key a ≤ key b) (l : List α) (K : Nat) :
    (jsSortBy cmp l).filter (fun a => key a == K) = l.filter (fun a => key a == K) := by
  set p : α → Bool := fun a => key a == K with hp
  have hpair : (l.filter p).Pairwise (fun a b => cmp a b ≤ 0) := by
    refine List.pairwise_of_forall_mem_list ?_
    intro a ha b hb
    have ha' : key a = K := by simpa [hp] using (List.mem_filter.mp ha).2
    have hb' : key b = K := by simpa [hp] using (List.mem_filter.mp hb).2
    rw [hord, ha', hb']
  have h1 : List.Sublist (l.filter p) (jsSortBy cmp l) :=
    List.sublist_insertionSort hpair (List.filter_sublist l)
  have h2 : List.Sublist ((l.filter p).filter p) ((jsSortBy cmp l).filter p) :=
    h1.filter p
  have hself : (l.filter p).filter p = l.filter p :=
    List.filter_eq_self.mpr (fun a ha => (List.mem_filter.mp ha).2)
  rw [hself] at h2
  have hperm : List.Perm ((jsSortBy cmp l).filter p) (l.filter p) :=
    (List.perm_insertionSort _ l).filter p
  exact (h2.eq_of_length (hperm.length_eq.symm)).symm

/-! ## Lemmas: the proximity dedup -/

theorem nearIdx_refl (a : Nat) : nearIdx a a = true := by
  simp [nearIdx]

theorem dedupGo_shape : ∀ (ms acc : List HeadingMatch),
    ∃ kept, List.Sublist kept ms ∧ dedupGo acc ms = acc ++ kept := by
  intro ms
  induction ms with
  | nil => intro acc; exact ⟨[], List.Sublist.refl _, by simp [dedupGo]⟩
  | cons m ms ih =>
    intro acc
    rw [dedupGo]
    by_cases h : acc.any (fun x => nearIdx x.index m.index)
    · obtain ⟨kept, hs, he⟩ := ih acc
      exact ⟨kept, hs.cons m, by rw [if_pos h, he]⟩
    · obtain ⟨kept, hs, he⟩ := ih (acc ++ [m])
      exact ⟨m :: kept, hs.cons₂ m, by rw [if_neg h, he, List.append_assoc]; rfl⟩

theorem dedupGo_pairwise : ∀ (ms acc : List HeadingMatch),
    acc.Pairwise (fun a b => nearIdx a.index b.index = false) →
    (dedupGo acc ms).Pairwise (fun a b => nearIdx a.index b.index = false) := by
  intro ms
  induction ms with
  | nil => intro acc h; simpa [dedupGo] using h
  | cons m ms ih =>
    intro acc h
    rw [dedupGo]
    by_cases hn : acc.any (fun x => nearIdx x.index m.index)
    · rw [if_pos hn]
      exact ih acc h
    · rw [if_neg hn]
      refine ih (acc ++ [m]) ?_
      rw [List.pairwise_append]
      refine ⟨h, List.pairwise_singleton _ _, ?_⟩
      intro a ha b hb
      have : ¬ nearIdx a.index m.index = true := by
        intro hx
        exact hn (List.any_eq_true.mpr ⟨a, ha, hx⟩)
      simp only [List.mem_singleton] at hb
      subst hb
      simpa using this

theorem dedupGo_cover : ∀ (ms acc : List HeadingMatch), ∀ m ∈ ms,
    ∃ m' ∈ dedupGo acc ms, nearIdx m'.index m.index = true := by
  intro ms
  induction ms with
  | nil => intro acc m hm; simp at hm
  | cons a ms ih =>
    intro acc m hm
    rw [dedupGo]
    by_cases hn : acc.any (fun x => nearIdx x.index a.index)
    · rw [if_pos hn]
      rcases List.mem_cons.mp hm with rfl | hm'
      · obtain ⟨x, hx, hnear⟩ := List.any_eq_true.mp hn
        obtain ⟨kept, _, he⟩ := dedupGo_shape ms acc
        exact ⟨x, by rw [he]; exact List.mem_append_left _ hx, hnear⟩
      · exact ih acc m hm'
    · rw [if_neg hn]
      rcases List.mem_cons.mp hm with rfl | hm'
      · obtain ⟨kept, _, he⟩ := dedupGo_shape ms (acc ++ [m])
        refine ⟨m, ?_, nearIdx_refl _⟩
        rw [he]
        exact List.mem_append_left _ (List.mem_append_right _ (List.mem_singleton.mpr rfl))
      · exact ih (acc ++ [a]) m hm'

theorem dedupGo_keeps_first : ∀ (l₁ : List HeadingMatch) (acc : List HeadingMatch)
    (m : HeadingMatch) (l₂ : List HeadingMatch),
    (∀ x ∈ acc ++ l₁, nearIdx x.index m.index = false) →
    m ∈ dedupGo acc (l₁ ++ m :: l₂) := by
  intro l₁
  induction l₁ with
  | nil =>
    intro acc m l₂ h
    rw [List.nil_append, dedupGo]
    have hn : ¬ acc.any (fun x => nearIdx x.index m.index) = true := by
      intro hx
      obtain ⟨x, hx1, hx2⟩ := List.any_eq_true.mp hx
      have := h x (by simpa using hx1)
      rw [this] at hx2
      exact Bool.false_ne_true hx2
    rw [if_neg hn]
    obtain ⟨kept, _, he⟩ := dedupGo_shape l₂ (acc ++ [m])
    rw [he]
    exact List.mem_append_left _ (List.mem_append_right _ (List.mem_singleton.mpr rfl))
  | cons a l₁ ih =>
    intro acc m l₂ h
    rw [List.cons_append, dedupGo]
    by_cases hn : acc.any (fun x => nearIdx x.index a.index)
    · rw [if_pos hn]
      refine ih acc m l₂ ?_
      intro x hx
      refine h x ?_
      rcases List.mem_append.mp hx with h1 | h2
      · exact List.mem_append_left _ h1
      · exact List.mem_append_right _ (List.mem_cons_of_mem _ h2)
    · rw [if_neg hn]
      refine ih (acc ++ [a]) m l₂ ?_
      intro x hx
      rcases List.mem_append.mp hx with h1 | h2
      · rcases List.mem_append.mp h1 with h3 | h4
        · exact h x (List.mem_append_left _ h3)
        · have : x = a := List.mem_singleton.mp h4
          subst this
          exact h x (List.mem_append_right _ (List.mem_cons_self _ _))
      · exact h x (List.mem_append_right _ (List.mem_cons_of_mem _ h2))

/-! ## Lemmas: span building -/

theorem spanFilter_mem {cleaned : List Char} {m : HeadingMatch} {e : Nat} :
    ∀ s ∈ spanFilter cleaned m e,
      150 < s.content.length ∧ s.start = m.index ∧ s.name = m.name := by
  intro s hs
  rw [spanFilter] at hs
  by_cases h : 150 < (spanContent cleaned m.index e).length
  · rw [if_pos h] at hs
    rcases List.mem_singleton.mp hs with rfl
    exact ⟨h, rfl, rfl⟩
  · rw [if_neg h] at hs
    simp at hs

theorem spanFilter_pairwise {cleaned : List Char} {m : HeadingMatch} {e : Nat}
    (r : SectionSpan → SectionSpan → Prop) :
    (spanFilter cleaned m e).Pairwise r := by
  rw [spanFilter]
  by_cases h : 150 < (spanContent cleaned m.index e).length
  · rw [if_pos h]; exact List.pairwise_singleton _ _
  · rw [if_neg h]; exact List.Pairwise.nil

theorem buildSpans_length : ∀ (ms : List HeadingMatch) (cleaned : List Char),
    ∀ s ∈ buildSpans cleaned ms, 150 < s.content.length := by
  intro ms
  induction ms with
  | nil => intro cleaned s hs; simp [buildSpans] at hs
  | cons m rest ih =>
    intro cleaned s hs
    cases rest with
    | nil =>
      rw [buildSpans] at hs
      exact (spanFilter_mem s hs).1
    | cons m' rest' =>
      rw [buildSpans] at hs
      rcases List.mem_append.mp hs with h1 | h2
      · exact (spanFilter_mem s h1).1
      · exact ih cleaned s h2

theorem buildSpans_start_mem : ∀ (ms : List HeadingMatch) (cleaned : List Char),
    ∀ s ∈ buildSpans cleaned ms, ∃ m ∈ ms, s.start = m.index := by
  intro ms
  induction ms with
  | nil => intro cleaned s hs; simp [buildSpans] at hs
  | cons m rest ih =>
    intro cleaned s hs
    cases rest with
    | nil =>
      rw [buildSpans] at hs
      exact ⟨m, List.mem_cons_self _ _, (spanFilter_mem s hs).2.1⟩
    | cons m' rest' =>
      rw [buildSpans] at hs
      rcases List.mem_append.mp hs with h1 | h2
      · exact ⟨m, List.mem_cons_self _ _, (spanFilter_mem s h1).2.1⟩
      · obtain ⟨mm, hmm, he⟩ := ih cleaned s h2
        exact ⟨mm, List.mem_cons_of_mem _ hmm, he⟩

theorem buildSpans_pairwise : ∀ (ms : List HeadingMatch) (cleaned : List Char),
    ms.Pairwise (fun a b => a.index ≤ b.index) →
    (buildSpans cleaned ms).Pairwise (fun a b => a.start ≤ b.start) := by
  intro ms
  induction ms with
  | nil => intro cleaned _; simp [buildSpans]
  | cons m rest ih =>
    intro cleaned h
    obtain ⟨hm, hrest⟩ := List.pairwise_cons.mp h
    cases rest with
    | nil =>
      rw [buildSpans]
      exact spanFilter_pairwise _
    | cons m' rest' =>
      rw [buildSpans, List.pairwise_append]
      refine ⟨spanFilter_pairwise _, ih cleaned hrest, ?_⟩
      intro a ha b hb
      obtain ⟨_, hstart, _⟩ := spanFilter_mem a ha
      obtain ⟨mm, hmm, he⟩ := buildSpans_start_mem _ cleaned b hb
      rw [hstart, he]
      exact hm mm hmm

/-! ## Claims C3 and C7 -/

/-- C3.  Every span produced by `extractSections` has content length at
least 150 (the filter keeps lengths > 150, the fallback has length > 500),
the spans carry nondecreasing document offsets, and when zero heading-derived
spans survive while the cleaned text exceeds 500 characters, the result is
exactly one "Summary" span over the first 20 000 characters of the cleaned
text. -/
theorem claim3_section_invariants (text : List Char) :
    (∀ s ∈ extractSections text, 150 ≤ s.content.length) ∧
    (extractSections text).Pairwise (fun a b => a.start ≤ b.start) ∧
    (headingSpans (stripBoilerplate text) = [] → 500 < (stripBoilerplate text).length →
      extractSections text =
        [⟨("Summary").data, (stripBoilerplate text).take 20000, 0⟩]) := by
  refine ⟨?_, ?_, ?_⟩
  · intro s hs
    rw [extractSections] at hs
    by_cases hc : (headingSpans (stripBoilerplate text)).isEmpty = true ∧
        500 < (stripBoilerplate text).length
    · rw [if_pos hc] at hs
      rcases List.mem_singleton.mp hs with rfl
      simp only [List.length_take]
      omega
    · rw [if_neg hc] at hs
      have := buildSpans_length _ (stripBoilerplate text) s hs
      omega
  · rw [extractSections]
    by_cases hc : (headingSpans (stripBoilerplate text)).isEmpty = true ∧
        500 < (stripBoilerplate text).length
    · rw [if_pos hc]
      exact List.pairwise_singleton _ _
    · rw [if_neg hc]
      refine buildSpans_pairwise _ _ ?_
      exact jsSortBy_pairwise_key (fun m : HeadingMatch => m.index)
        (fun a b => (a.index : Int) - (b.index : Int))
        (fun a b => by
          show (a.index : Int) - (b.index : Int) ≤ 0 ↔ a.index ≤ b.index
          omega)
        (dedupMatches (rawMatchesOf (stripBoilerplate text)))
  · intro h1 h2
    rw [extractSections, if_pos ⟨by rw [h1]; rfl, h2⟩]

/-- C3 witness: a 520-character text with no heading matches produces
exactly the synthetic Summary span. -/
theorem claim3_witness :
    headingSpans (stripBoilerplate (List.replicate 520 'a')) = [] ∧
    500 < (stripBoilerplate (List.replicate 520 'a')).length ∧
    extractSections (List.replicate 520 'a') =
      [⟨("Summary").data, (stripBoilerplate (List.replicate 520 'a')).take 20000, 0⟩] :=
  ⟨by decide, by decide, (claim3_section_invariants _).2.2 (by decide) (by decide)⟩

/-- C7.  During heading detection: the recorded matches are pairwise at
least 30 characters apart (any match within 30 characters of an
already-recorded one is dropped); the recorded list is a sublist of the raw
matches in processing order (pattern order first, then position, so
overlapping detections are resolved in favour of the earlier pattern, which
determines the recorded name); every raw match is within 30 characters of
some recorded match; and a raw match not within 30 characters of any
earlier-processed match is always recorded. -/
theorem claim7_dedup_tiebreak (cleaned : List Char) :
    (dedupMatches (rawMatchesOf cleaned)).Pairwise
      (fun a b => nearIdx a.index b.index = false) ∧
    List.Sublist (dedupMatches (rawMatchesOf cleaned)) (rawMatchesOf cleaned) ∧
    (∀ m ∈ rawMatchesOf cleaned,
      ∃ m' ∈ dedupMatches (rawMatchesOf cleaned), nearIdx m'.index m.index = true) ∧
    (∀ (l₁ : List HeadingMatch) (m : HeadingMatch) (l₂ : List HeadingMatch),
      rawMatchesOf cleaned = l₁ ++ m :: l₂ →
      (∀ x ∈ l₁, nearIdx x.index m.index = false) →
      m ∈ dedupMatches (rawMatchesOf cleaned)) := by
  refine ⟨?_, ?_, ?_, ?_⟩
  · exact dedupGo_pairwise _ [] List.Pairwise.nil
  · obtain ⟨kept, hs, he⟩ := dedupGo_shape (rawMatchesOf cleaned) []
    rw [dedupMatches, he]
    simpa using hs
  · intro m hm
    exact dedupGo_cover _ [] m hm
  · intro l₁ m l₂ heq h
    rw [dedupMatches, heq]
    exact dedupGo_keeps_first l₁ [] m l₂ (by simpa using h)

/-- The C7 witness text: two headings 15 characters apart, detected by
pattern 3 (`Use of Proceeds`) and the later pattern 8 (`Underwriting`). -/
def c7text : List Char := ("Use of Proceeds\nUnderwriting\nMore details follow.").data

/-- C7 witness: on `c7text` the raw matches are `Use of Proceeds` at offset
0 (pattern 3) and `Underwriting` at offset 15 (pattern 8); the first is
recorded by the fourth conjunct of the theorem, and the recorded list is
exactly that one match — the later pattern's overlapping match was dropped,
so the earlier pattern determined the name. -/
theorem claim7_witness :
    rawMatchesOf c7text =
      [⟨("Use of Proceeds").data, 0⟩, ⟨("Underwriting").data, 15⟩] ∧
    (⟨("Use of Proceeds").data, 0⟩ : HeadingMatch) ∈ dedupMatches (rawMatchesOf c7text) ∧
    dedupMatches (rawMatchesOf c7text) = [⟨("Use of Proceeds").data, 0⟩] :=
  ⟨by decide,
    (claim7_dedup_tiebreak c7text).2.2.2 [] ⟨("Use of Proceeds").data, 0⟩
      [⟨("Underwriting").data, 15⟩] (by decide) (by decide),
    by decide⟩

/-! ## Phrase counting (`CONDITIONAL` / `DEFINITIVE`)

The two regexes are `\b(we\s+)?(w₁|…|w₁₂)\b` with flags `gi`.  The scanner
below realises the global `exec` loop: a match can only start where the
previous character is not a word character (the leading `\b`, since every
alternative starts with a letter); the optional `we\s+` branch is tried
first; the alternatives are tried in order, each with its trailing `\b`. -/

def conditionalWords : List String :=
  ["may", "might", "could", "would", "should", "intend", "expect", "believe",
   "anticipate", "seek", "plan", "aim"]

def definitiveWords : List String :=
  ["have", "has", "had", "do", "does", "did", "generate", "generated",
   "operate", "operates", "provide", "provides"]

/-- Case-insensitive literal word followed by the `\b` check. -/
def matchWordB (w : List Char) (l : List Char) : Option (List Char) :=
  match reqLit true w l with
  | some rest =>
    match rest.head? with
    | some c => if isWordChar c then none else some rest
    | none => some rest
  | none => none

/-- The alternation `(may|might|…)\b` in order; returns the canonical
lower-case word (`(m[2] || m[0]).toLowerCase()` equals the dictionary word
because the match is ASCII case-insensitive) and the rest of the input. -/
def matchAltB : List String → List Char → Option (List Char × List Char)
  | [], _ => none
  | w :: ws, l =>
    match matchWordB w.data l with
    | some rest => some (w.data, rest)
    | none => matchAltB ws l

/-- One attempt of `\b(we\s+)?(alt)\b` at the current position. -/
def matchPhrase (words : List String) (l : List Char) : Option (List Char × List Char) :=
  match reqLit true ("we").data l with
  | some afterWe =>
    match reqWSp afterWe with
    | some afterWS =>
      match matchAltB words afterWS with
      | some r => some r
      | none => matchAltB words l
    | none => matchAltB words l
  | none => matchAltB words l

/-- The global `exec` loop, collecting matched phrases in order.  `prevWord`
records whether the preceding character is a word character (no match can
start there). -/
def phraseScanGo (words : List String) : Nat → List Char → Bool → List (List Char)
  | 0, _, _ => []
  | _ + 1, [], _ => []
  | fuel + 1, c :: rest, prevWord =>
    if prevWord then phraseScanGo words fuel rest (isWordChar c)
    else
      match matchPhrase words (c :: rest) with
      | some (w, after) => w :: phraseScanGo words fuel after true
      | none => phraseScanGo words fuel rest (isWordChar c)

/-- All matches of `\b(we\s+)?(alt)\b` over the text (`text.match(re)` with
the `g` flag, by count and phrase). -/
def phraseMatches (words : List String) (t : List Char) : List (List Char) :=
  phraseScanGo words (t.length + 1) t false

/-- JS `Map.set` frequency update: increment in place, else append. -/
def mapInc : List (List Char × Nat) → List Char → List (List Char × Nat)
  | [], k => [(k, 1)]
  | (k', c) :: rest, k =>
    if k' = k then (k', c + 1) :: rest else (k', c) :: mapInc rest k

/-- `countInText(text, regex)`: insertion-ordered frequency map. -/
def countInText (t : List Char) (words : List String) : List (List Char × Nat) :=
  (phraseMatches words t).foldl mapInc []

/-! ## `deriveObservation` -/

/-- One alternative position of `/\d+\s*%|percent|allocation/i`. -/
def testPercentAt (l : List Char) : Bool :=
  (do
    let l ← reqRun isAsciiDigit l
    reqChar '%' (skipWS l)).isSome ||
  (reqLit true ("percent").data l).isSome ||
  (reqLit true ("allocation").data l).isSome

def testPercent : List Char → Bool
  | [] => false
  | c :: rest => testPercentAt (c :: rest) || testPercent rest

/-- One alternative position of `/\$\s*[\d,]+|million|proceeds/i`. -/
def testSpecificsAt (l : List Char) : Bool :=
  (do
    let l ← reqChar '$' l
    reqRun isDigitComma (skipWS l)).isSome ||
  (reqLit true ("million").data l).isSome ||
  (reqLit true ("proceeds").data l).isSome

def testSpecifics : List Char → Bool
  | [] => false
  | c :: rest => testSpecificsAt (c :: rest) || testSpecifics rest

/-- `deriveObservation(sectionName, content, excerpt, allSections)`. -/
def deriveObservation (sectionName content excerpt : List Char)
    (allSections : List SectionSpan) : List Char :=
  let words := (splitWsRuns content).length
  let conditionalInSection := (phraseMatches conditionalWords content).length
  let totalWords := allSections.foldl (fun a s => a + (splitWsRuns s.content).length) 0
  let avgWords : ℚ :=
    if 0 < allSections.length then (totalWords : ℚ) / (allSections.length : ℚ) else 0
  let obs1 : List (List Char) :=
    if containsSub (sectionName.map asciiLower) (("risk").data) then
      if 50 < conditionalInSection then
        [("Heavy use of conditional phrasing (may, could, might) throughout.").data]
      else if 20 < conditionalInSection then [("Moderate conditional phrasing.").data]
      else []
    else []
  let obs2 : List (List Char) :=
    if containsSub (sectionName.map asciiLower) (("use of proceeds").data) then
      if !testPercent content && decide (100 < excerpt.length) then
        [("No specific allocation percentages quoted; unusually vague relative to typical disclosures.").data]
      else if testSpecifics content then
        [("Specific dollar amounts or allocation described in the filing.").data]
      else []
    else []
  let obs3 : List (List Char) :=
    if words < 200 ∧ (500 : ℚ) < avgWords then
      [("Unusually brief relative to other sections.").data]
    else []
  let obs4 : List (List Char) :=
    if 3000 < words then [("Extensive disclosure in this section.").data] else []
  let observations := obs1 ++ obs2 ++ obs3 ++ obs4
  if observations.isEmpty then
    ("Verbatim from the Prospectus. Length and structure mechanically reported below.").data
  else List.intercalate ([' ']) observations

/-! ## `extractOfferingDetails` -/

/-- Run a position-anchored matcher at every position, leftmost first
(`String.prototype.match` without the `g` flag). -/
def scanFirst (f : List Char → Option α) : List Char → Option α
  | [] => none
  | c :: rest =>
    match f (c :: rest) with
    | some r => some r
    | none => scanFirst f rest

/-- First succeeding continuation, in engine order. -/
def firstSome (f : α → Option β) : List α → Option β
  | [] => none
  | a :: rest =>
    match f a with
    | some b => some b
    | none => firstSome f rest

/-- The candidates of `(?:\s*million|\s*billion)?` (and of the equivalent
`(?:\s*(?:million|billion))?`): with `million`, with `billion`, or skipped,
each as `(remaining, consumed)`. -/
def mbCandidates (l : List Char) : List (List Char × Nat) :=
  (match reqLit true ("million").data (skipWS l) with
   | some r => [(r, l.length - r.length)]
   | none => []) ++
  (match reqLit true ("billion").data (skipWS l) with
   | some r => [(r, l.length - r.length)]
   | none => []) ++ [(l, 0)]

/-- The candidates of `(?:\.\d{2})?`: with the two-decimal part or skipped. -/
def decCandidates (l : List Char) : List (List Char × Nat) :=
  (match l with
   | '.' :: d1 :: d2 :: r =>
     if isAsciiDigit d1 && isAsciiDigit d2 then [(r, 3)] else []
   | _ => []) ++ [(l, 0)]

/-- `\d[\d,]*` at the head; returns the rest. -/
def reqNum (l : List Char) : Option (List Char) :=
  match l with
  | c :: rest => if isAsciiDigit c then some (rest.dropWhile isDigitComma) else none
  | [] => none

/-- `(?:shares|units)` case-insensitively; returns the rest. -/
def reqSharesUnits (l : List Char) : Option (List Char) :=
  match reqLit true ("shares").data l with
  | some r => some r
  | none => reqLit true ("units").data l

/-- `/(\d[\d,]*(?:\s*(?:million|billion))?)\s*(?:shares|units)\s*(?:of\s+(?:common|class\s+a|class\s+ordinary))?/i`
anchored at the current position; returns `m[1]`.  The fully optional
trailing `(?:of\s+…)?` group can affect neither success nor the capture and
is omitted. -/
def shares1At (l : List Char) : Option (List Char) := do
  let afterNum ← reqNum l
  firstSome (fun cand =>
    match reqSharesUnits (skipWS cand.1) with
    | some _ => some (l.take ((l.length - afterNum.length) + cand.2))
    | none => none) (mbCandidates afterNum)

/-- `/(\d[\d,]*)\s*(?:shares|units)\s*(?:of\s+)/i` anchored; returns `m[1]`. -/
def shares2At (l : List Char) : Option (List Char) := do
  let afterNum ← reqNum l
  let afterSU ← reqSharesUnits (skipWS afterNum)
  let afterOf ← reqLit true ("of").data (skipWS afterSU)
  let _ ← reqWSp afterOf
  pure (l.take (l.length - afterNum.length))

/-- `/(\d[\d,]*(?:\s*million|\s*billion)?)\s*(?:shares|units)\b/i` anchored;
returns `m[1]`. -/
def shares3At (l : List Char) : Option (List Char) := do
  let afterNum ← reqNum l
  firstSome (fun cand =>
    match reqSharesUnits (skipWS cand.1) with
    | some afterSU =>
      match afterSU.head? with
      | some c => if isWordChar c then none
          else some (l.take ((l.length - afterNum.length) + cand.2))
      | none => some (l.take ((l.length - afterNum.length) + cand.2))
    | none => none) (mbCandidates afterNum)

/-- `/\$\s*[\d,]+\s+[A-Za-z\s]+\s+(\d[\d,]*(?:\s*million|\s*billion)?)\s*(?:shares|units)/i`
anchored; returns `m[1]`.  The run of `[A-Za-z\s]` must end in whitespace
directly before a digit — the only split the backtracking engine can take. -/
def shares4At (l : List Char) : Option (List Char) := do
  let afterDollar ← reqChar '$' l
  let afterAmt ← reqRun isDigitComma (skipWS afterDollar)
  let run := afterAmt.takeWhile (fun c => isAsciiLetter c || jsWhitespace c)
  let capStart := afterAmt.drop run.length
  match run.getLast? with
  | some lastC =>
    if 2 ≤ run.length && jsWhitespace lastC then do
      let afterNum ← reqNum capStart
      firstSome (fun cand =>
        match reqSharesUnits (skipWS cand.1) with
        | some _ =>
          some (capStart.take ((capStart.length - afterNum.length) + cand.2))
        | none => none) (mbCandidates afterNum)
    else none
  | none => none

/-- `/\$\s*[\d,]+(?:\.\d{2})?\s*per\s+(?:share|unit|class\s+a\s+share)/i`
anchored; returns `m[0]`. -/
def price1At (l : List Char) : Option (List Char) := do
  let afterDollar ← reqChar '$' l
  let afterAmt ← reqRun isDigitComma (skipWS afterDollar)
  firstSome (fun cand => do
    let afterPer ← reqLit true ("per").data (skipWS cand.1)
    let afterWS ← reqWSp afterPer
    let rest ← (match reqLit true ("share").data afterWS with
      | some r => some r
      | none =>
        match reqLit true ("unit").data afterWS with
        | some r => some r
        | none => do
          let r ← reqLit true ("class").data afterWS
          let r ← reqWSp r
          let r ← reqLit true ("a").data r
          let r ← reqWSp r
          reqLit true ("share").data r)
    pure (l.take (l.length - rest.length))) (decCandidates afterAmt)

/-- The greedy trailing `(?:\.\d{2})?`: consume `.` and two digits when
present (nothing follows it in the pattern, so greedy inclusion is final). -/
def decGreedy (l : List Char) : List Char :=
  match l with
  | '.' :: d1 :: d2 :: r => if isAsciiDigit d1 && isAsciiDigit d2 then r else '.' :: d1 :: d2 :: r
  | _ => l

/-- `/(?:public\s+offering\s+price|offering\s+price|price)\s*(?:of\s+)?\$\s*[\d,]+(?:\.\d{2})?/i`
anchored; returns `m[0]` (the trailing decimal group is included greedily
when present). -/
def price2At (l : List Char) : Option (List Char) :=
  let lead : List (List Char → Option (List Char)) :=
    [fun x => do
      let x ← reqLit true ("public").data x
      let x ← reqWSp x
      let x ← reqLit true ("offering").data x
      let x ← reqWSp x
      reqLit true ("price").data x,
     fun x => do
      let x ← reqLit true ("offering").data x
      let x ← reqWSp x
      reqLit true ("price").data x,
     fun x => reqLit true ("price").data x]
  firstSome (fun f => do
    let afterLead ← f l
    let ofCands : List (List Char) :=
      (match (do
        let y ← reqLit true ("of").data (skipWS afterLead)
        reqWSp y) with
       | some y => [y]
       | none => []) ++ [skipWS afterLead]
    firstSome (fun y => do
      let z ← reqChar '$' y
      let z ← reqRun isDigitComma (skipWS z)
      pure (l.take (l.length - (decGreedy z).length))) ofCands) lead

/-- `/at\s+(?:a\s+)?price\s+of\s+\$\s*[\d,]+(?:\.\d{2})?/i` anchored;
returns `m[0]`. -/
def price3At (l : List Char) : Option (List Char) := do
  let x ← reqLit true ("at").data l
  let x ← reqWSp x
  let aCands : List (List Char) :=
    (match (do
      let y ← reqLit true ("a").data x
      reqWSp y) with
     | some y => [y]
     | none => []) ++ [x]
  firstSome (fun y => do
    let y ← reqLit true ("price").data y
    let y ← reqWSp y
    let y ← reqLit true ("of").data y
    let y ← reqWSp y
    let y ← reqChar '$' y
    let y ← reqRun isDigitComma (skipWS y)
    pure (l.take (l.length - (decGreedy y).length))) aCands

/-- `/\$\s*[\d,]+(?:\.\d{2})?\s*per\s+(?:share|unit)/i` anchored;
returns `m[0]`. -/
def price4At (l : List Char) : Option (List Char) := do
  let afterDollar ← reqChar '$' l
  let afterAmt ← reqRun isDigitComma (skipWS afterDollar)
  firstSome (fun cand => do
    let afterPer ← reqLit true ("per").data (skipWS cand.1)
    let afterWS ← reqWSp afterPer
    let rest ← (match reqLit true ("share").data afterWS with
      | some r => some r
      | none => reqLit true ("unit").data afterWS)
    pure (l.take (l.length - rest.length))) (decCandidates afterAmt)

structure OfferingDetails where
  sharesOffered : Option (List Char)
  pricePerShare : Option (List Char)
deriving DecidableEq

/-- `extractOfferingDetails(text)` from the source. -/
def extractOfferingDetails (text : List Char) : OfferingDetails :=
  let coverArea := text.take 10000
  let sharesOffered :=
    (match scanFirst shares1At coverArea with
     | some m1 => some m1
     | none =>
       match scanFirst shares2At coverArea with
       | some m1 => some m1
       | none =>
         match scanFirst shares3At coverArea with
         | some m1 => some m1
         | none => scanFirst shares4At coverArea).map
      (fun m1 => collapseWS (trimChars m1))
  let pricePerShare :=
    (match scanFirst price1At coverArea with
     | some m0 => some m0
     | none =>
       match scanFirst price2At coverArea with
       | some m0 => some m0
       | none =>
         match scanFirst price3At coverArea with
         | some m0 => some m0
         | none => scanFirst price4At coverArea).map
      (fun m0 => trimChars (collapseWS m0))
  ⟨sharesOffered, pricePerShare⟩

/-! ## The briefing data model -/

structure ExcerptEntry where
  quote : List Char
  observation : List Char
deriving DecidableEq

structure BriefingSection where
  heading : List Char
  excerpts : List ExcerptEntry
deriving DecidableEq

structure PhraseCount where
  phrase : List Char
  count : Nat
deriving DecidableEq

structure SectionWordCount where
  name : List Char
  words : Nat
  note : Option (List Char)
deriving DecidableEq

/-- `{ section, note }` from the source (`section` is a Lean keyword, so the
field is called `sectionName`). -/
structure Underdeveloped where
  sectionName : List Char
  note : List Char
deriving DecidableEq

structure BriefingMetrics where
  conditionalPhrases : List PhraseCount
  conditionalTotal : Nat
  definitiveTotal : Nat
  conditionalRatio : ℚ
  sectionWordCounts : List SectionWordCount
  notablyUnderdeveloped : List Underdeveloped
deriving DecidableEq

structure FilingDates where
  s1FilingDate : Option (List Char)
  registrationDate : Option (List Char)
  prospectusFilingDate : Option (List Char)
deriving DecidableEq

/-- The `meta` argument of `analyzeProspectus`. -/
structure FilingMeta where
  companyName : List Char
  cik : List Char
  accessionNumber : List Char
  filingDate : List Char
  formType : List Char
  prospectusUrl : Option (List Char)
  filingDates : Option FilingDates
deriving DecidableEq

structure ProspectusBriefing where
  companyName : List Char
  cik : List Char
  accessionNumber : List Char
  filingDate : List Char
  formType : List Char
  prospectusUrl : List Char
  generatedAt : List Char
  overview : List Char
  summary : List Char
  offeringDetails : OfferingDetails
  filingDates : Option FilingDates
  sections : List BriefingSection
  metrics : BriefingMetrics
deriving DecidableEq

/-! ## `analyzeProspectus` -/

/-- `stripHtml(html)`: the `DOMParser`/`body.innerText` call is the opaque
browser collaborator, so its output is the input here; the normalization
chain after it is the source's. -/
def stripHtml (bodyInnerText : List Char) : List Char :=
  trimChars (collapseNl3 (collapseSpaces (replaceCR (replaceCRLF bodyInnerText))))

/-- `priorityOrder` from the source. -/
def priorityOrder : List (List Char) :=
  [("Use of Proceeds").data, ("Risk Factors").data, ("Prospectus Summary").data,
   ("Offering").data, ("Our Business").data, ("Underwriting").data,
   ("Capitalization").data, ("Dilution").data]

/-- JS `Array.prototype.findIndex` (−1 when absent). -/
def jsFindIndexFrom (p : α → Bool) : Nat → List α → Int
  | _, [] => -1
  | i, x :: rest => if p x then (i : Int) else jsFindIndexFrom p (i + 1) rest

def jsFindIndex (p : α → Bool) (l : List α) : Int := jsFindIndexFrom p 0 l

/-- `priorityOrder.findIndex((p) => name.includes(p) || p.includes(name))`. -/
def relevanceIdx (name : List Char) : Int :=
  jsFindIndex (fun p => containsSub name p || containsSub p name) priorityOrder

/-- The `sortByRelevance` comparator. -/
def sortByRelevance (a b : SectionSpan) : Int :=
  let ai := relevanceIdx a.name
  let bi := relevanceIdx b.name
  if 0 ≤ ai ∧ 0 ≤ bi then ai - bi
  else if 0 ≤ ai then -1
  else if 0 ≤ bi then 1
  else 0

/-- The body of one iteration of the excerpt loop: `continue` on an empty
excerpt, else the pushed briefing section. -/
def gBriefing (sections : List SectionSpan) (sec : SectionSpan) : Option BriefingSection :=
  let excerpt := extractSubstantiveExcerpt sec.content 280
  if excerpt.isEmpty then none
  else some ⟨sec.name, [⟨excerpt, deriveObservation sec.name sec.content excerpt sections⟩]⟩

/-- `continue` on an empty excerpt (`none`), else push. -/
def pushOpt (acc : List β) (o : Option β) : List β :=
  match o with
  | none => acc
  | some b => acc ++ [b]

/-- The excerpt loop over the first 8 relevance-sorted sections. -/
def briefingSectionsOf (sections : List SectionSpan) : List BriefingSection :=
  ((jsSortBy sortByRelevance sections).take 8).foldl
    (fun acc sec => pushOpt acc (gBriefing sections sec)) []

/-- `/summary|prospectus summary|offering/i.test(s.name)`. -/
def summaryNameTest (name : List Char) : Bool :=
  containsSubCI name (("summary").data) ||
  containsSubCI name (("prospectus summary").data) ||
  containsSubCI name (("offering").data)

/-- `/\$\s*[\d,]+(?:\s*million|\s*billion)?/i` anchored; returns `m[0]`
(the optional suffix is included greedily when present). -/
def offSizeAt (l : List Char) : Option (List Char) := do
  let x ← reqChar '$' l
  let x ← reqRun isDigitComma (skipWS x)
  let fin :=
    match reqLit true ("million").data (skipWS x) with
    | some r => r
    | none =>
      match reqLit true ("billion").data (skipWS x) with
      | some r => r
      | none => x
  pure (l.take (l.length - fin.length))

/-- `expectedSections` from the source. -/
def expectedSections : List (List Char) :=
  [("Risk Factors").data, ("Use of Proceeds").data, ("Business").data,
   ("Capitalization").data, ("Dilution").data, ("Underwriting").data]

/-! The body of `analyzeProspectus` is factored into named helpers, one per
local binding of the source function, so that field projections of the
result reduce cheaply; each helper is the verbatim corresponding fragment,
applied to `text = stripBoilerplate(rawText)` or `sections =
extractSections(rawText)` as in the source. -/

def conditionalCountsOf (text : List Char) : List (List Char × Nat) :=
  countInText text conditionalWords

/-- `[...conditionalCounts.values()].reduce((a, b) => a + b, 0)`. -/
def conditionalTotalOf (text : List Char) : Nat :=
  ((conditionalCountsOf text).map (fun e => e.2)).foldl (· + ·) 0

/-- `(text.match(DEFINITIVE) ?? []).length`. -/
def definitiveTotalOf (text : List Char) : Nat :=
  (phraseMatches definitiveWords text).length

/-- `definitiveTotal > 0 ? conditionalTotal / definitiveTotal : 0`. -/
def conditionalRatioOf (text : List Char) : ℚ :=
  if 0 < definitiveTotalOf text then
    (conditionalTotalOf text : ℚ) / (definitiveTotalOf text : ℚ)
  else 0

/-- The `sectionWordCounts` map. -/
def sectionWordCountsOf (sections : List SectionSpan) (text : List Char) :
    List SectionWordCount :=
  sections.map (fun s =>
    let words := (splitWsRuns s.content).length
    let totalWords := (splitWsRuns text).length
    let pct : ℚ := if 0 < totalWords then (words : ℚ) / (totalWords : ℚ) * 100 else 0
    let note : Option (List Char) :=
      if containsSub s.name (("Risk Factors").data) ∧ pct < 3 then
        some (("Unusually brief").data)
      else if containsSub s.name (("Risk Factors").data) ∧ 25 < pct then
        some (("Extensive").data)
      else none
    SectionWordCount.mk s.name words note)

/-- The `notablyUnderdeveloped` loop. -/
def notablyUnderdevelopedOf (sections : List SectionSpan) : List Underdeveloped :=
  expectedSections.flatMap (fun expected =>
    match sections.find? (fun s =>
        containsSub (s.name.map asciiUpper) (expected.map asciiUpper)) with
    | none =>
      [⟨expected, ("Not located as a distinct section in the filing.").data⟩]
    | some found =>
      let words := (splitWsRuns found.content).length
      if words < 150 then
        [⟨expected, ("Present but brief (").data ++ natToChars words ++ (" words).").data⟩]
      else [])

/-- `sections.find((s) => /summary|prospectus summary|offering/i.test(s.name))`. -/
def summarySecOf (sections : List SectionSpan) : Option SectionSpan :=
  sections.find? (fun s => summaryNameTest s.name)

/-- The overview paragraph. -/
def overviewOf (rawText : List Char) (sections : List SectionSpan)
    (meta : FilingMeta) : List Char :=
  let offeringSize :=
    match scanFirst offSizeAt rawText with
    | some m0 => m0
    | none => []
  let firstSentence :=
    match summarySecOf sections with
    | some s => extractSubstantiveExcerpt s.content 180
    | none => []
  let overviewParts :=
    (if offeringSize.isEmpty then [] else
      [("This ").data ++ meta.formType ++
        (" prospectus describes an offering of approximately ").data ++
        offeringSize ++ (".").data]) ++
    (if firstSentence.isEmpty then [] else [firstSentence]) ++
    [("Key excerpts below are verbatim from the filing.").data]
  let overviewJoined := trimChars (List.intercalate ([' ']) overviewParts)
  if overviewJoined.isEmpty then
    ("This prospectus filing by ").data ++ meta.companyName ++
      (" contains the offering terms, use of proceeds, risk factors, and related disclosures. Key excerpts below are verbatim from the filing.").data
  else overviewJoined

/-- The `summary` field. -/
def summaryOf (sections : List SectionSpan) : List Char :=
  match summarySecOf sections with
  | some s => extractSubstantiveExcerpt s.content 500
  | none =>
    match sections.head? with
    | some s0 => extractSubstantiveExcerpt s0.content 400
    | none => []

/-- `[...entries()].sort((a, b) => b[1] - a[1]).slice(0, 10).map(...)`. -/
def conditionalPhrasesOf (text : List Char) : List PhraseCount :=
  ((jsSortBy (fun a b : List Char × Nat => (b.2 : Int) - (a.2 : Int))
    (conditionalCountsOf text)).take 10).map (fun e => ⟨e.1, e.2⟩)

/-- `analyzeProspectus(html, meta)` from the source; `bodyInnerText` stands
for the browser's `doc.body.innerText` and `now` for
`new Date().toISOString()`. -/
def analyzeProspectus (bodyInnerText : List Char) (meta : FilingMeta)
    (now : List Char) : ProspectusBriefing :=
  { companyName := meta.companyName
    cik := meta.cik
    accessionNumber := meta.accessionNumber
    filingDate := meta.filingDate
    formType := meta.formType
    prospectusUrl := meta.prospectusUrl.getD []
    generatedAt := now
    overview := overviewOf (stripHtml bodyInnerText)
      (extractSections (stripHtml bodyInnerText)) meta
    summary := summaryOf (extractSections (stripHtml bodyInnerText))
    offeringDetails := extractOfferingDetails (stripHtml bodyInnerText)
    filingDates := meta.filingDates
    sections := briefingSectionsOf (extractSections (stripHtml bodyInnerText))
    metrics :=
      { conditionalPhrases :=
          conditionalPhrasesOf (stripBoilerplate (stripHtml bodyInnerText))
        conditionalTotal := conditionalTotalOf (stripBoilerplate (stripHtml bodyInnerText))
        definitiveTotal := definitiveTotalOf (stripBoilerplate (stripHtml bodyInnerText))
        conditionalRatio := conditionalRatioOf (stripBoilerplate (stripHtml bodyInnerText))
        sectionWordCounts :=
          sectionWordCountsOf (extractSections (stripHtml bodyInnerText))
            (stripBoilerplate (stripHtml bodyInnerText))
        notablyUnderdeveloped :=
          notablyUnderdevelopedOf (extractSections (stripHtml bodyInnerText)) } }

/-! ## Claims C2 and C8 -/

/-- C2.  The computed `conditionalRatio` (a JS float modelled as an exact
rational, which is by construction finite and never NaN/Infinity) equals
`conditionalTotal / definitiveTotal` when `definitiveTotal > 0`, equals
exactly 0 when `definitiveTotal = 0`, and is non-negative for all inputs. -/
theorem claim2_conditional_ratio (bodyInnerText : List Char) (meta : FilingMeta)
    (now : List Char) :
    ((analyzeProspectus bodyInnerText meta now).metrics.definitiveTotal = 0 →
      (analyzeProspectus bodyInnerText meta now).metrics.conditionalRatio = 0) ∧
    (0 < (analyzeProspectus bodyInnerText meta now).metrics.definitiveTotal →
      (analyzeProspectus bodyInnerText meta now).metrics.conditionalRatio =
        ((analyzeProspectus bodyInnerText meta now).metrics.conditionalTotal : ℚ) /
          ((analyzeProspectus bodyInnerText meta now).metrics.definitiveTotal : ℚ)) ∧
    0 ≤ (analyzeProspectus bodyInnerText meta now).metrics.conditionalRatio := by
  have hd : (analyzeProspectus bodyInnerText meta now).metrics.definitiveTotal =
      definitiveTotalOf (stripBoilerplate (stripHtml bodyInnerText)) := by
    dsimp only [analyzeProspectus]
  have hc : (analyzeProspectus bodyInnerText meta now).metrics.conditionalTotal =
      conditionalTotalOf (stripBoilerplate (stripHtml bodyInnerText)) := by
    dsimp only [analyzeProspectus]
  have hr : (analyzeProspectus bodyInnerText meta now).metrics.conditionalRatio =
      conditionalRatioOf (stripBoilerplate (stripHtml bodyInnerText)) := by
    dsimp only [analyzeProspectus]
  refine ⟨?_, ?_, ?_⟩
  · intro h
    rw [hd] at h
    rw [hr]
    simp only [conditionalRatioOf]
    rw [if_neg (by omega)]
  · intro h
    rw [hd] at h
    rw [hr]
    simp only [conditionalRatioOf]
    rw [if_pos h, hc, hd]
  · rw [hr]
    simp only [conditionalRatioOf]
    by_cases h : 0 < definitiveTotalOf (stripBoilerplate (stripHtml bodyInnerText))
    · rw [if_pos h]
      exact div_nonneg (Nat.cast_nonneg _) (Nat.cast_nonneg _)
    · rw [if_neg h]

/-- C2 witness: the zero-definitive case at the empty input. -/
theorem claim2_witness :
    (analyzeProspectus [] (FilingMeta.mk [] [] [] [] [] none none) []).metrics.definitiveTotal
      = 0 ∧
    (analyzeProspectus [] (FilingMeta.mk [] [] [] [] [] none none) []).metrics.conditionalRatio
      = 0 :=
  ⟨rfl, (claim2_conditional_ratio [] (FilingMeta.mk [] [] [] [] [] none none) []).1 rfl⟩

/-- C8.  `analyzeProspectus` is deterministic in everything except the
`generatedAt` timestamp: for the same `(html, meta)` input (and the same
browser text extraction), the `sections`, `metrics` and `overview` fields of
two runs coincide whatever the two clock readings are.  (Map iteration is
insertion-ordered and `Array.prototype.sort` is stable, both modelled
deterministically.) -/
theorem claim8_deterministic (bodyInnerText : List Char) (meta : FilingMeta)
    (t₁ t₂ : List Char) :
    (analyzeProspectus bodyInnerText meta t₁).sections =
      (analyzeProspectus bodyInnerText meta t₂).sections ∧
    (analyzeProspectus bodyInnerText meta t₁).metrics =
      (analyzeProspectus bodyInnerText meta t₂).metrics ∧
    (analyzeProspectus bodyInnerText meta t₁).overview =
      (analyzeProspectus bodyInnerText meta t₂).overview := by
  refine ⟨?_, ?_, ?_⟩ <;> dsimp only [analyzeProspectus]

/-! ## Claim C5: the relevance-priority selection -/

/-- The sort key induced by the comparator: the priority index when the
`findIndex` probe succeeds, else 8 (= `priorityOrder.length`, past every
priority slot). -/
def relKey (name : List Char) : Nat :=
  if relevanceIdx name < 0 then 8 else (relevanceIdx name).toNat

theorem jsFindIndexFrom_cases (p : α → Bool) : ∀ (l : List α) (i : Nat),
    jsFindIndexFrom p i l = -1 ∨
      ((i : Int) ≤ jsFindIndexFrom p i l ∧
        jsFindIndexFrom p i l < (i : Int) + l.length) := by
  intro l
  induction l with
  | nil => intro i; exact Or.inl rfl
  | cons x rest ih =>
    intro i
    rw [jsFindIndexFrom]
    by_cases h : p x
    · rw [if_pos h]
      right
      constructor
      · exact le_refl _
      · simp only [List.length_cons]
        push_cast
        omega
    · rw [if_neg h]
      rcases ih (i + 1) with h1 | ⟨h2, h3⟩
      · exact Or.inl h1
      · right
        push_cast at h2 h3 ⊢
        simp only [List.length_cons]
        push_cast
        omega

theorem relevanceIdx_cases (name : List Char) :
    relevanceIdx name = -1 ∨ (0 ≤ relevanceIdx name ∧ relevanceIdx name < 8) := by
  rcases jsFindIndexFrom_cases
      (fun p => containsSub name p || containsSub p name) priorityOrder 0 with h | ⟨h1, h2⟩
  · exact Or.inl h
  · right
    have hl : priorityOrder.length = 8 := rfl
    rw [relevanceIdx, jsFindIndex]
    constructor
    · simpa using h1
    · rw [hl] at h2
      simpa using h2

theorem sortByRelevance_hord (a b : SectionSpan) :
    sortByRelevance a b ≤ 0 ↔ relKey a.name ≤ relKey b.name := by
  have ha := relevanceIdx_cases a.name
  have hb := relevanceIdx_cases b.name
  simp only [sortByRelevance, relKey]
  rcases ha with ha | ⟨ha0, ha8⟩ <;> rcases hb with hb | ⟨hb0, hb8⟩
  · rw [ha, hb]
    norm_num
  · rw [ha]
    rw [if_neg (by norm_num), if_neg (by norm_num), if_pos hb0, if_pos (by norm_num),
      if_neg (by omega)]
    constructor
    · intro h; omega
    · intro h; omega
  · rw [hb]
    rw [if_neg (by omega), if_pos ha0, if_neg (by omega), if_pos (by norm_num)]
    constructor
    · intro h; omega
    · intro h; omega
  · rw [if_pos ⟨ha0, hb0⟩, if_neg (by omega), if_neg (by omega)]
    constructor
    · intro h; omega
    · intro h; omega

/-- `foldl` with conditional push equals `filterMap`. -/
theorem foldl_push_filterMap (g : α → Option β) :
    ∀ (l : List α) (acc : List β),
      l.foldl (fun acc a => pushOpt acc (g a)) acc = acc ++ l.filterMap g := by
  intro l
  induction l with
  | nil => intro acc; simp
  | cons a l ih =>
    intro acc
    rw [List.foldl_cons, List.filterMap_cons]
    cases hg : g a with
    | none =>
      simp only [hg]
      have hp : pushOpt acc none = acc := rfl
      rw [hp, ih]
    | some b =>
      simp only [hg]
      have hp : pushOpt acc (some b) = acc ++ [b] := rfl
      rw [hp, ih]
      simp

theorem gBriefing_some_shape {sections : List SectionSpan} {sec : SectionSpan}
    {b : BriefingSection} (h : gBriefing sections sec = some b) :
    b.heading = sec.name ∧
      b.excerpts = [⟨extractSubstantiveExcerpt sec.content 280,
        deriveObservation sec.name sec.content
          (extractSubstantiveExcerpt sec.content 280) sections⟩] := by
  simp only [gBriefing] at h
  by_cases he : (extractSubstantiveExcerpt sec.content 280).isEmpty
  · rw [if_pos he] at h
    simp at h
  · rw [if_neg he] at h
    rcases Option.some.injEq _ _ ▸ h with rfl
    exact ⟨rfl, rfl⟩

theorem filterMap_heading_sublist (sections : List SectionSpan) :
    ∀ l : List SectionSpan,
      List.Sublist ((l.filterMap (gBriefing sections)).map (fun b => b.heading))
        (l.map (fun s => s.name)) := by
  intro l
  induction l with
  | nil => simp
  | cons sec l ih =>
    rw [List.filterMap_cons, List.map_cons]
    cases hg : gBriefing sections sec with
    | none => exact ih.trans (List.sublist_cons_self _ _)
    | some b =>
      rw [List.map_cons]
      have hh := (gBriefing_some_shape hg).1
      rw [hh]
      exact ih.cons₂ _

theorem filterMap_heading_filter_sublist (sections : List SectionSpan) :
    ∀ l : List SectionSpan,
      List.Sublist
        (((l.filterMap (gBriefing sections)).filter
          (fun b => relKey b.heading == 8)).map (fun b => b.heading))
        ((l.filter (fun s => relKey s.name == 8)).map (fun s => s.name)) := by
  intro l
  induction l with
  | nil => simp
  | cons sec l ih =>
    rw [List.filterMap_cons, List.filter_cons]
    cases hg : gBriefing sections sec with
    | none =>
      by_cases hq : relKey sec.name == 8
      · rw [if_pos hq, List.map_cons]
        exact ih.trans (List.sublist_cons_self _ _)
      · rw [if_neg hq]
        exact ih
    | some b =>
      rw [List.filter_cons]
      have hh := (gBriefing_some_shape hg).1
      by_cases hq : relKey sec.name == 8
      · rw [if_pos (by rw [hh]; exact hq), if_pos hq, List.map_cons, List.map_cons, hh]
        exact ih.cons₂ _
      · rw [if_neg (by rw [hh]; exact hq), if_neg hq]
        exact ih

/-- C5.  `analyzeProspectus` produces at most 8 briefing sections; each
carries exactly one excerpt, whose quote and derived observation come from a
section span of the document; the headings are ordered by the fixed priority
list (`relKey`, with non-priority sections keyed past the list); and the
non-priority sections appear in their original relative order (their heading
sequence is a sublist of the original non-priority name sequence). -/
theorem claim5_priority_selection (bodyInnerText : List Char) (meta : FilingMeta)
    (now : List Char) :
    (analyzeProspectus bodyInnerText meta now).sections.length ≤ 8 ∧
    (∀ b ∈ (analyzeProspectus bodyInnerText meta now).sections, b.excerpts.length = 1) ∧
    (analyzeProspectus bodyInnerText meta now).sections.Pairwise
      (fun x y => relKey x.heading ≤ relKey y.heading) ∧
    List.Sublist
      (((analyzeProspectus bodyInnerText meta now).sections.filter
        (fun b => relKey b.heading == 8)).map (fun b => b.heading))
      (((extractSections (stripHtml bodyInnerText)).filter
        (fun s => relKey s.name == 8)).map (fun s => s.name)) ∧
    (∀ b ∈ (analyzeProspectus bodyInnerText meta now).sections,
      ∃ sec ∈ extractSections (stripHtml bodyInnerText),
        b.heading = sec.name ∧
        b.excerpts = [⟨extractSubstantiveExcerpt sec.content 280,
          deriveObservation sec.name sec.content
            (extractSubstantiveExcerpt sec.content 280)
            (extractSections (stripHtml bodyInnerText))⟩]) := by
  have hsec : (analyzeProspectus bodyInnerText meta now).sections =
      briefingSectionsOf (extractSections (stripHtml bodyInnerText)) := by
    dsimp only [analyzeProspectus]
  rw [hsec]
  generalize hS : extractSections (stripHtml bodyInnerText) = S
  have hbs : briefingSectionsOf S =
      ((jsSortBy sortByRelevance S).take 8).filterMap (gBriefing S) := by
    rw [briefingSectionsOf]
    simpa using foldl_push_filterMap (gBriefing S) ((jsSortBy sortByRelevance S).take 8) []
  rw [hbs]
  have hsorted : (jsSortBy sortByRelevance S).Pairwise
      (fun x y => relKey x.name ≤ relKey y.name) :=
    jsSortBy_pairwise_key (fun s => relKey s.name) sortByRelevance sortByRelevance_hord S
  refine ⟨?_, ?_, ?_, ?_, ?_⟩
  · calc (((jsSortBy sortByRelevance S).take 8).filterMap (gBriefing S)).length
        ≤ ((jsSortBy sortByRelevance S).take 8).length := List.length_filterMap_le _ _
      _ ≤ 8 := List.length_take_le _ _
  · intro b hb
    obtain ⟨sec, _, hg⟩ := List.mem_filterMap.mp hb
    rw [(gBriefing_some_shape hg).2]
    rfl
  · have htake : ((jsSortBy sortByRelevance S).take 8).Pairwise
        (fun x y => relKey x.name ≤ relKey y.name) :=
      hsorted.sublist (List.take_sublist _ _)
    refine (List.pairwise_filterMap).mpr (htake.imp ?_)
    intro a a' hle b hb b' hb'
    rw [(gBriefing_some_shape (Option.mem_def.mp hb)).1,
      (gBriefing_some_shape (Option.mem_def.mp hb')).1]
    exact hle
  · refine (filterMap_heading_filter_sublist S _).trans ?_
    refine (List.Sublist.map _ (List.Sublist.filter _ (List.take_sublist _ _))).trans ?_
    rw [jsSortBy_filter_key (fun s => relKey s.name) sortByRelevance sortByRelevance_hord]
  · intro b hb
    obtain ⟨sec, hmem, hg⟩ := List.mem_filterMap.mp hb
    have hsec' : sec ∈ S := by
      have h1 : sec ∈ jsSortBy sortByRelevance S :=
        (List.take_sublist _ _).subset hmem
      exact (List.perm_insertionSort _ S).subset h1
    obtain ⟨hh, he⟩ := gBriefing_some_shape hg
    exact ⟨sec, hsec', hh, he⟩

/-- A raw line at loop index `i` stops the loop: its trimmed form is
non-empty, is not skip-classified, and is substantive. -/
def sbQualifies (i : Nat) (l : List Char) : Bool :=
  let line := trimChars l
  !line.isEmpty && !sbSkipCond i line && substantiveLine line

/-- A raw line's contribution to `skipChars` when it does not stop the loop. -/
def sbSkipAmount (i : Nat) (l : List Char) : Nat :=
  let line := trimChars l
  if !line.isEmpty && sbSkipCond i line then l.length + 1 else 0

/-- Total skipped characters over a run of non-stopping lines. -/
def sbSkipSum : List (List Char) → Nat → Nat
  | [], _ => 0
  | l :: ls, i => sbSkipAmount i l + sbSkipSum ls (i + 1)

theorem sbScan_none : ∀ (ls : List (List Char)) (i skip : Nat),
    (∀ p ∈ List.enumFrom i ls, sbQualifies p.1 p.2 = false) →
    sbScan ls i skip = (skip + sbSkipSum ls i, false) := by
  intro ls
  induction ls with
  | nil => intro i skip _; simp [sbScan, sbSkipSum]
  | cons l ls ih =>
    intro i skip h
    have h0 : sbQualifies i l = false := h (i, l) (by simp [List.enumFrom])
    have hrest : ∀ p ∈ List.enumFrom (i + 1) ls, sbQualifies p.1 p.2 = false := by
      intro p hp; exact h p (by simp [List.enumFrom, hp])
    rw [sbScan]
    by_cases he : (trimChars l).isEmpty
    · have hz : sbSkipAmount i l = 0 := by simp [sbSkipAmount, he]
      rw [if_pos he, ih (i + 1) skip hrest]
      simp [sbSkipSum, hz]
    · rw [if_neg he]
      by_cases hc : sbSkipCond i (trimChars l)
      · have hz : sbSkipAmount i l = l.length + 1 := by simp [sbSkipAmount, he, hc]
        rw [if_pos hc, ih (i + 1) (skip + l.length + 1) hrest]
        simp [sbSkipSum, hz, Nat.add_assoc]
      · have hs : substantiveLine (trimChars l) = false := by
          have := h0
          simp [sbQualifies, he, hc] at this
          exact this
        have hz : sbSkipAmount i l = 0 := by simp [sbSkipAmount, hc]
        rw [if_neg hc, if_neg (by simp [hs]), ih (i + 1) skip hrest]
        simp [sbSkipSum, hz]

theorem sbScan_found : ∀ (pre : List (List Char)) (i skip : Nat) (l : List Char)
    (post : List (List Char)),
    (∀ p ∈ List.enumFrom i pre, sbQualifies p.1 p.2 = false) →
    sbQualifies (i + pre.length) l = true →
    sbScan (pre ++ l :: post) i skip = (skip + sbSkipSum pre i, true) := by
  intro pre
  induction pre with
  | nil =>
    intro i skip l post _ hq
    simp only [List.length_nil, Nat.add_zero] at hq
    have he : (trimChars l).isEmpty = false := by
      rcases h : (trimChars l).isEmpty with _ | _
      · rfl
      · simp [sbQualifies, h] at hq
    have hc : sbSkipCond i (trimChars l) = false := by
      rcases h : sbSkipCond i (trimChars l) with _ | _
      · rfl
      · simp [sbQualifies, h] at hq
    have hs : substantiveLine (trimChars l) = true := by
      simpa [sbQualifies, he, hc] using hq
    rw [List.nil_append, sbScan, if_neg (by simp [he]), if_neg (by simp [hc]), if_pos hs]
    simp [sbSkipSum]
  | cons p pre ih =>
    intro i skip l post h hq
    have h0 : sbQualifies i p = false := h (i, p) (by simp [List.enumFrom])
    have hrest : ∀ q ∈ List.enumFrom (i + 1) pre, sbQualifies q.1 q.2 = false := by
      intro q hqq; exact h q (by simp [List.enumFrom, hqq])
    have hq' : sbQualifies (i + 1 + pre.length) l = true := by
      have harith : i + 1 + pre.length = i + (p :: pre).length := by simp; omega
      rw [harith]; exact hq
    rw [List.cons_append, sbScan]
    by_cases he : (trimChars p).isEmpty
    · have hz : sbSkipAmount i p = 0 := by simp [sbSkipAmount, he]
      rw [if_pos he, ih (i + 1) skip l post hrest hq']
      simp [sbSkipSum, hz]
    · rw [if_neg he]
      by_cases hc : sbSkipCond i (trimChars p)
      · have hz : sbSkipAmount i p = p.length + 1 := by simp [sbSkipAmount, he, hc]
        rw [if_pos hc, ih (i + 1) (skip + p.length + 1) l post hrest hq']
        simp [sbSkipSum, hz, Nat.add_assoc]
      · have hs : substantiveLine (trimChars p) = false := by
          have := h0
          simp [sbQualifies, he, hc] at this
          exact this
        have hz : sbSkipAmount i p = 0 := by simp [sbSkipAmount, hc]
        rw [if_neg hc, if_neg (by simp [hs]), ih (i + 1) skip l post hrest hq']
        simp [sbSkipSum, hz]

/-- C10.  `stripBoilerplate` only ever removes a prefix: its result is
`text.slice(k)` for some `k ≥ 0`, then edge-trimmed; in particular it is a
contiguous substring of the input, with no interior character modified,
reordered, or deleted. -/
theorem claim10_stripBoilerplate_suffix (text : List Char) :
    (∃ k, stripBoilerplate text = trimChars (text.drop k)) ∧
      ∃ pre post, pre ++ stripBoilerplate text ++ post = text := by
  constructor
  · exact ⟨(if (sbScan ((splitNl text).take 50) 0 0).2 then
      (sbScan ((splitNl text).take 50) 0 0).1 else 0), rfl⟩
  · have h1 : ∃ pre post, pre ++ stripBoilerplate text ++ post =
        text.drop (if (sbScan ((splitNl text).take 50) 0 0).2 then
          (sbScan ((splitNl text).take 50) 0 0).1 else 0) :=
      trim_mid _
    have h2 : ∃ pre post, pre ++ text.drop (if (sbScan ((splitNl text).take 50) 0 0).2
        then (sbScan ((splitNl text).take 50) 0 0).1 else 0) ++ post = text := by
      refine ⟨text.take (if (sbScan ((splitNl text).take 50) 0 0).2 then
        (sbScan ((splitNl text).take 50) 0 0).1 else 0), [], ?_⟩
      simp [List.take_append_drop]
    exact mid_trans h1 h2

/-- C6 (amended).  The `stripBoilerplate` scan examines at most the first 50
lines (texts agreeing on those lines produce the same skip offset), and stops
skipping at the first line that is substantive (length ≥ 80, contains a
lowercase letter, not purely numeric/currency/punctuation) *and is not itself
classified as boilerplate or early short metadata*; the characters skipped
are exactly the lengths (plus newline) of the skip-classified lines before
that point.  If no such line occurs within the first 50 lines, no characters
are skipped and the original text is returned trimmed. -/
theorem claim6_stripBoilerplate_scan_amended :
    (∀ t₁ t₂ : List Char, (splitNl t₁).take 50 = (splitNl t₂).take 50 →
      ∃ k, stripBoilerplate t₁ = trimChars (t₁.drop k) ∧
        stripBoilerplate t₂ = trimChars (t₂.drop k)) ∧
    (∀ (text : List Char) (pre : List (List Char)) (l : List Char)
        (post : List (List Char)),
      (splitNl text).take 50 = pre ++ l :: post →
      (∀ p ∈ List.enumFrom 0 pre, sbQualifies p.1 p.2 = false) →
      sbQualifies pre.length l = true →
      stripBoilerplate text = trimChars (text.drop (sbSkipSum pre 0))) ∧
    (∀ text : List Char,
      (∀ p ∈ List.enumFrom 0 ((splitNl text).take 50), sbQualifies p.1 p.2 = false) →
      stripBoilerplate text = trimChars text) := by
  refine ⟨?_, ?_, ?_⟩
  · intro t₁ t₂ h
    refine ⟨(if (sbScan ((splitNl t₁).take 50) 0 0).2 then
      (sbScan ((splitNl t₁).take 50) 0 0).1 else 0), rfl, ?_⟩
    show trimChars (t₂.drop _) = _
    rw [h]
  · intro text pre l post hsplit hpre hq
    have hq' : sbQualifies (0 + pre.length) l = true := by simpa using hq
    have := sbScan_found pre 0 0 l post hpre hq'
    show trimChars (text.drop _) = _
    rw [hsplit, this]
    simp
  · intro text h
    have := sbScan_none ((splitNl text).take 50) 0 0 h
    show trimChars (text.drop _) = _
    rw [this]
    simp

/-- The two concrete lines of the C6 counterexample.  The first line is
substantive in the claim's sense (89 characters, lowercase letters, not
purely numeric) but also matches the roman-numeral boilerplate pattern
`/^\s*[ivxlcdm]+\s*\./i` (via the word "mild"), so the code skips it. -/
def c6line0 : List Char :=
  ("mild. After careful planning we decided to pursue a very broad consumer market worldwide.").data

def c6line1 : List Char :=
  ("Our operations span multiple regions and our teams deliver consistent results every day.").data

def c6text : List Char := c6line0 ++ '\n' :: c6line1

/-- C6 counterexample: the first line of `c6text` is substantive by the
claim's definition, so by the claim no characters should be skipped and the
result should be the trimmed original; the code instead skips the first line
because it is also boilerplate-classified. -/
theorem claim6_counterexample :
    substantiveLine (trimChars c6line0) = true ∧
      (splitNl c6text).take 50 = [c6line0, c6line1] ∧
      stripBoilerplate c6text ≠ trimChars c6text := by
  refine ⟨by decide, by decide, by decide⟩

/-- C6 witness: a text whose first 50 lines contain no qualifying line is
returned trimmed and unskipped. -/
theorem claim6_witness :
    (∀ p ∈ List.enumFrom 0 ((splitNl (("Short line.\nAlso short.").data)).take 50),
      sbQualifies p.1 p.2 = false) ∧
    stripBoilerplate (("Short line.\nAlso short.").data) =
      trimChars (("Short line.\nAlso short.").data) :=
  ⟨by decide, claim6_stripBoilerplate_scan_amended.2.2 _ (by decide)⟩

/-! ## Claim C9: graceful degradation -/

/-- C9.  Every pipeline step is modelled here by a total function, so the
analysis always terminates with a value and no step can raise; the
degradation is graceful: the empty input yields a briefing with no
sections, an empty summary, no phrase counts, zero totals and a zero
ratio; any input whose cleaned text produces no heading spans yields
either an empty section list or the single synthetic "Summary" fallback
span; and the excerpt of empty content is empty for every `maxLen`. -/
theorem claim9_graceful (meta : FilingMeta) (now : List Char) (text : List Char)
    (maxLen : Nat) :
    ((analyzeProspectus [] meta now).sections = [] ∧
      (analyzeProspectus [] meta now).summary = [] ∧
      (analyzeProspectus [] meta now).metrics.conditionalPhrases = [] ∧
      (analyzeProspectus [] meta now).metrics.conditionalTotal = 0 ∧
      (analyzeProspectus [] meta now).metrics.definitiveTotal = 0 ∧
      (analyzeProspectus [] meta now).metrics.conditionalRatio = 0 ∧
      (analyzeProspectus [] meta now).metrics.sectionWordCounts = []) ∧
    (headingSpans (stripBoilerplate (stripHtml text)) = [] →
      extractSections (stripHtml text) = [] ∨
      extractSections (stripHtml text) =
        [⟨("Summary").data, (stripBoilerplate (stripHtml text)).take 20000, 0⟩]) ∧
    extractSubstantiveExcerpt [] maxLen = [] := by
  refine ⟨?_, ?_, ?_⟩
  · dsimp only [analyzeProspectus]
    exact ⟨rfl, rfl, rfl, rfl, rfl, rfl, rfl⟩
  · intro h
    by_cases hlen : 500 < (stripBoilerplate (stripHtml text)).length
    · right
      rw [extractSections, if_pos ⟨by rw [h]; rfl, hlen⟩]
    · left
      rw [extractSections, if_neg (fun hc => hlen hc.2)]
      exact h
  · rfl

/-- C9 witness: the second conjunct at a concrete heading-free 520-character
body, yielding the synthetic Summary span. -/
theorem claim9_witness :
    headingSpans (stripBoilerplate (stripHtml (List.replicate 520 'b'))) = [] ∧
    extractSections (stripHtml (List.replicate 520 'b')) =
      [⟨("Summary").data,
        (stripBoilerplate (stripHtml (List.replicate 520 'b'))).take 20000, 0⟩] := by
  refine ⟨by decide, ?_⟩
  rcases (claim9_graceful (FilingMeta.mk [] [] [] [] [] none none) [] (List.replicate 520 'b') 0).2.1
      (by decide) with h | h
  · exact absurd h (by decide)
  · exact h

end Horizon
